import Mathlib

/-!
# JSON Exploration Engine — shallow embedding

This file embeds the core of the `jviewpro` repository's JSON engine in Lean 4
and settles the specification claims against it.  The embedded functions are
translated from `src/lib/json-parser.ts` (bundled into `src/src/app/page.tsx`)
and `src/src/components/json-tree-view.tsx`:

* `parseJsonString`, `isValidJsonSyntax`, `analyzeJsonStructure`,
  `getJsonType`, `extractJsonPaths`, `searchInJson` — the parser/validator,
  structural analyzer, path addresser and search engine;
* `JsonTreeNode` / `JsonTreeView` — the budget-bounded tree rendering, the
  tree view's local search and the next/previous hit navigation.

JavaScript-host functionality that the source calls (`JSON.parse`,
`Number(...)`, `String.prototype.trim`, `String.prototype.includes`,
`toLowerCase`, number-to-string conversion) is modelled by executable Lean
functions implementing the ECMAScript behaviour, with these documented
simplifications: numbers are kept as decimal mantissa/exponent pairs instead
of IEEE-754 doubles (no claim depends on float rounding or float formatting),
`\uXXXX` escapes for lone surrogates decode through `Char.ofNat`'s total
default instead of UTF-16 code units, and the whitespace set of `trim` is the
ASCII whitespace plus NBSP/BOM rather than full Unicode `Zs`.
-/

namespace JViewPro

/-- The in-memory JSON value graph produced by `JSON.parse`: a tagged union
over null / boolean / number / string / object (ordered fields) / array.
Numbers are kept as a decimal mantissa/exponent pair `mant * 10 ^ exp`
(IEEE-754 doubles are not modelled; no claim depends on float semantics). -/
inductive Json where
  | null : Json
  | bool (b : Bool) : Json
  | num (mant : Int) (exp : Int) : Json
  | str (s : String) : Json
  | arr (items : List Json) : Json
  | obj (fields : List (String × Json)) : Json
deriving Repr

-- Equality of values recurses through the two nested `List` positions, where
-- no deriving handler applies; decidable equality is built from an explicit
-- mutual Boolean comparison.
mutual

def beqJ : Json → Json → Bool
  | .null, .null => true
  | .bool a, .bool b => a == b
  | .num m1 e1, .num m2 e2 => m1 == m2 && e1 == e2
  | .str a, .str b => a == b
  | .arr a, .arr b => beqJElems a b
  | .obj a, .obj b => beqJFields a b
  | _, _ => false

def beqJElems : List Json → List Json → Bool
  | [], [] => true
  | x :: xs, y :: ys => beqJ x y && beqJElems xs ys
  | _, _ => false

def beqJFields : List (String × Json) → List (String × Json) → Bool
  | [], [] => true
  | (k1, v1) :: xs, (k2, v2) :: ys => k1 == k2 && beqJ v1 v2 && beqJFields xs ys
  | _, _ => false

end

mutual

theorem beqJ_iff : ∀ a b : Json, beqJ a b = true ↔ a = b
  | .null, .null => by simp [beqJ]
  | .bool _, .bool _ => by simp [beqJ]
  | .num _ _, .num _ _ => by simp [beqJ]
  | .str _, .str _ => by simp [beqJ]
  | .arr x, .arr y => by simp [beqJ, beqJElems_iff x y]
  | .obj x, .obj y => by simp [beqJ, beqJFields_iff x y]
  | .null, .bool _ | .null, .num _ _ | .null, .str _ | .null, .arr _ | .null, .obj _
  | .bool _, .null | .bool _, .num _ _ | .bool _, .str _ | .bool _, .arr _ | .bool _, .obj _
  | .num _ _, .null | .num _ _, .bool _ | .num _ _, .str _ | .num _ _, .arr _
  | .num _ _, .obj _
  | .str _, .null | .str _, .bool _ | .str _, .num _ _ | .str _, .arr _ | .str _, .obj _
  | .arr _, .null | .arr _, .bool _ | .arr _, .num _ _ | .arr _, .str _ | .arr _, .obj _
  | .obj _, .null | .obj _, .bool _ | .obj _, .num _ _ | .obj _, .str _ | .obj _, .arr _ =>
    by simp [beqJ]

theorem beqJElems_iff : ∀ xs ys : List Json, beqJElems xs ys = true ↔ xs = ys
  | [], [] => by simp [beqJElems]
  | x :: xs, y :: ys => by simp [beqJElems, beqJ_iff x y, beqJElems_iff xs ys]
  | [], _ :: _ => by simp [beqJElems]
  | _ :: _, [] => by simp [beqJElems]

theorem beqJFields_iff : ∀ xs ys : List (String × Json), beqJFields xs ys = true ↔ xs = ys
  | [], [] => by simp [beqJFields]
  | (k1, v1) :: xs, (k2, v2) :: ys => by
    simp [beqJFields, beqJ_iff v1 v2, beqJFields_iff xs ys, and_assoc, Prod.ext_iff]
  | [], _ :: _ => by simp [beqJFields]
  | _ :: _, [] => by simp [beqJFields]

end

instance : DecidableEq Json := fun a b => decidable_of_iff (beqJ a b = true) (beqJ_iff a b)

/-- `getJsonType` from `json-parser.ts`: the semantic type tag of a value. -/
def getJsonType : Json → String
  | .null => "null"
  | .arr _ => "array"
  | .obj _ => "object"
  | .str _ => "string"
  | .num _ _ => "number"
  | .bool _ => "boolean"

/-- State of the analyzer's traversal: the two outer mutable variables
`nodeCount` and `depth` of `analyzeJsonStructure`, threaded explicitly. -/
structure TState where
  nodeCount : Nat
  depth : Nat
deriving Repr, DecidableEq

mutual

/-- The `traverse` closure of `analyzeJsonStructure`, on tree values.

`JSON.parse` always builds a tree whose composite nodes are pairwise
identity-distinct, so on every value reaching this function from
`parseJsonString` the `visited` WeakSet test is false at each composite node;
the identity-keyed cycle guard is therefore dropped here and modelled
faithfully in the graph analyzer `traverseGraph` below, which is the one a
pre-existing cyclic host object would reach. -/
def traverseT (maxDepth maxNodes : Nat) : Json → Nat → TState → TState
  | v, currentDepth, st =>
    if st.nodeCount ≥ maxNodes then st
    else if currentDepth > maxDepth then st
    else
      let st1 : TState := ⟨st.nodeCount + 1, max st.depth currentDepth⟩
      match v with
      | .arr items => traverseTElems maxDepth maxNodes items currentDepth st1
      | .obj fields => traverseTFields maxDepth maxNodes fields currentDepth st1
      | _ => st1

/-- The `for` loop over array elements: the guard `nodeCount < maxNodes` is
re-checked before each child. -/
def traverseTElems (maxDepth maxNodes : Nat) : List Json → Nat → TState → TState
  | [], _, st => st
  | v :: vs, currentDepth, st =>
    if st.nodeCount < maxNodes then
      traverseTElems maxDepth maxNodes vs currentDepth
        (traverseT maxDepth maxNodes v (currentDepth + 1) st)
    else st

/-- The `for key in obj` loop over object members. -/
def traverseTFields (maxDepth maxNodes : Nat) : List (String × Json) → Nat → TState → TState
  | [], _, st => st
  | kv :: kvs, currentDepth, st =>
    if st.nodeCount < maxNodes then
      traverseTFields maxDepth maxNodes kvs currentDepth
        (traverseT maxDepth maxNodes kv.2 (currentDepth + 1) st)
    else st

end

/-- Result record of `analyzeJsonStructure`. -/
structure AnalyzeOut where
  depth : Nat
  nodeCount : Nat
  type : String
  hasCircularReferences : Bool
deriving Repr, DecidableEq

/-- `analyzeJsonStructure(data, maxDepth, maxNodes)` from `json-parser.ts`.
The returned `hasCircularReferences` is the source's literal
`false // Will be enhanced in future versions`. -/
def analyzeJsonStructure (data : Json) (maxDepth : Nat := 100) (maxNodes : Nat := 10000) :
    AnalyzeOut :=
  let s := traverseT maxDepth maxNodes data 0 ⟨0, 0⟩
  { depth := s.depth
    nodeCount := s.nodeCount
    type := getJsonType data
    hasCircularReferences := false }

mutual

/-- Depth-limited subtree size: the number of nodes at nesting level
`≤ maxDepth` when the subtree root sits at level `d`.  This is the exact
amount `traverseT` counts when the node budget does not bite. -/
def dCount (maxDepth : Nat) : Json → Nat → Nat
  | v, d =>
    if d > maxDepth then 0
    else
      match v with
      | .arr items => 1 + dCountElems maxDepth items d
      | .obj fields => 1 + dCountFields maxDepth fields d
      | _ => 1

def dCountElems (maxDepth : Nat) : List Json → Nat → Nat
  | [], _ => 0
  | v :: vs, d => dCount maxDepth v (d + 1) + dCountElems maxDepth vs d

def dCountFields (maxDepth : Nat) : List (String × Json) → Nat → Nat
  | [], _ => 0
  | kv :: kvs, d => dCount maxDepth kv.2 (d + 1) + dCountFields maxDepth kvs d

end

mutual

/-- Total number of nodes of a document (root and every leaf included),
with no depth limit: the "true total" of the monotone-budget claim. -/
def totalCount : Json → Nat
  | .arr items => 1 + totalCountElems items
  | .obj fields => 1 + totalCountFields fields
  | _ => 1

def totalCountElems : List Json → Nat
  | [] => 0
  | v :: vs => totalCount v + totalCountElems vs

def totalCountFields : List (String × Json) → Nat
  | [] => 0
  | kv :: kvs => totalCount kv.2 + totalCountFields kvs

end

mutual

/-- Maximum nesting level of a document relative to its root (root = 0). -/
def depthJ : Json → Nat
  | .arr items => depthJElems items
  | .obj fields => depthJFields fields
  | _ => 0

def depthJElems : List Json → Nat
  | [] => 0
  | v :: vs => max (1 + depthJ v) (depthJElems vs)

def depthJFields : List (String × Json) → Nat
  | [] => 0
  | kv :: kvs => max (1 + depthJ kv.2) (depthJFields kvs)

end

mutual

/-- Exact characterization of the analyzer's node counting: starting from a
state within budget, the traversal counts the depth-limited subtree size,
saturated at `maxNodes`. -/
theorem traverseT_count (maxD maxN : Nat) : ∀ (v : Json) (d : Nat) (st : TState),
    st.nodeCount ≤ maxN →
    (traverseT maxD maxN v d st).nodeCount = min maxN (st.nodeCount + dCount maxD v d)
  | .null, d, st => by
    intro h
    unfold traverseT dCount
    try dsimp only
    split_ifs with h1 h2 <;> (try dsimp only) <;> omega
  | .bool b, d, st => by
    intro h
    unfold traverseT dCount
    try dsimp only
    split_ifs with h1 h2 <;> (try dsimp only) <;> omega
  | .num m e, d, st => by
    intro h
    unfold traverseT dCount
    try dsimp only
    split_ifs with h1 h2 <;> (try dsimp only) <;> omega
  | .str s, d, st => by
    intro h
    unfold traverseT dCount
    try dsimp only
    split_ifs with h1 h2 <;> (try dsimp only) <;> omega
  | .arr items, d, st => by
    intro h
    unfold traverseT dCount
    try dsimp only
    split_ifs with h1 h2
    · omega
    · omega
    · omega
    · try dsimp only
      rw [traverseTElems_count maxD maxN items d ⟨st.nodeCount + 1, max st.depth d⟩
        (by try dsimp only; omega)]
      try dsimp only
      omega
  | .obj fields, d, st => by
    intro h
    unfold traverseT dCount
    try dsimp only
    split_ifs with h1 h2
    · omega
    · omega
    · omega
    · try dsimp only
      rw [traverseTFields_count maxD maxN fields d ⟨st.nodeCount + 1, max st.depth d⟩
        (by try dsimp only; omega)]
      try dsimp only
      omega

theorem traverseTElems_count (maxD maxN : Nat) : ∀ (l : List Json) (d : Nat) (st : TState),
    st.nodeCount ≤ maxN →
    (traverseTElems maxD maxN l d st).nodeCount = min maxN (st.nodeCount + dCountElems maxD l d)
  | [], d, st => by
    intro h
    unfold traverseTElems dCountElems
    omega
  | v :: vs, d, st => by
    intro h
    have hv := traverseT_count maxD maxN v (d + 1) st h
    unfold traverseTElems dCountElems
    try dsimp only
    split_ifs with h1
    · rw [traverseTElems_count maxD maxN vs d (traverseT maxD maxN v (d + 1) st) (by omega)]
      rw [hv]
      omega
    · omega

theorem traverseTFields_count (maxD maxN : Nat) :
    ∀ (l : List (String × Json)) (d : Nat) (st : TState),
    st.nodeCount ≤ maxN →
    (traverseTFields maxD maxN l d st).nodeCount = min maxN (st.nodeCount + dCountFields maxD l d)
  | [], d, st => by
    intro h
    unfold traverseTFields dCountFields
    omega
  | kv :: kvs, d, st => by
    intro h
    have hv := traverseT_count maxD maxN kv.2 (d + 1) st h
    unfold traverseTFields dCountFields
    try dsimp only
    split_ifs with h1
    · rw [traverseTFields_count maxD maxN kvs d (traverseT maxD maxN kv.2 (d + 1) st) (by omega)]
      rw [hv]
      omega
    · omega

end

mutual

/-- The analyzer never records a depth above `maxDepth`: the depth guard
returns before the update whenever `currentDepth > maxDepth`. -/
theorem traverseT_depth (maxD maxN : Nat) : ∀ (v : Json) (d : Nat) (st : TState),
    st.depth ≤ maxD → (traverseT maxD maxN v d st).depth ≤ maxD
  | .null, d, st => by
    intro h
    unfold traverseT
    split_ifs <;> (try dsimp only) <;> omega
  | .bool b, d, st => by
    intro h
    unfold traverseT
    split_ifs <;> (try dsimp only) <;> omega
  | .num m e, d, st => by
    intro h
    unfold traverseT
    split_ifs <;> (try dsimp only) <;> omega
  | .str s, d, st => by
    intro h
    unfold traverseT
    split_ifs <;> (try dsimp only) <;> omega
  | .arr items, d, st => by
    intro h
    unfold traverseT
    split_ifs with h1 h2
    · exact h
    · exact h
    · exact traverseTElems_depth maxD maxN items d ⟨st.nodeCount + 1, max st.depth d⟩
        (by dsimp only; omega)
  | .obj fields, d, st => by
    intro h
    unfold traverseT
    split_ifs with h1 h2
    · exact h
    · exact h
    · exact traverseTFields_depth maxD maxN fields d ⟨st.nodeCount + 1, max st.depth d⟩
        (by dsimp only; omega)

theorem traverseTElems_depth (maxD maxN : Nat) : ∀ (l : List Json) (d : Nat) (st : TState),
    st.depth ≤ maxD → (traverseTElems maxD maxN l d st).depth ≤ maxD
  | [], d, st => by
    intro h
    unfold traverseTElems
    exact h
  | v :: vs, d, st => by
    intro h
    unfold traverseTElems
    try dsimp only
    split_ifs with h1
    · exact traverseTElems_depth maxD maxN vs d (traverseT maxD maxN v (d + 1) st)
        (traverseT_depth maxD maxN v (d + 1) st h)
    · exact h

theorem traverseTFields_depth (maxD maxN : Nat) :
    ∀ (l : List (String × Json)) (d : Nat) (st : TState),
    st.depth ≤ maxD → (traverseTFields maxD maxN l d st).depth ≤ maxD
  | [], d, st => by
    intro h
    unfold traverseTFields
    exact h
  | kv :: kvs, d, st => by
    intro h
    unfold traverseTFields
    try dsimp only
    split_ifs with h1
    · exact traverseTFields_depth maxD maxN kvs d (traverseT maxD maxN kv.2 (d + 1) st)
        (traverseT_depth maxD maxN kv.2 (d + 1) st h)
    · exact h

end

mutual

/-- When the depth limit covers the whole subtree, the depth-limited size is
the plain total size. -/
theorem dCount_eq_totalCount (maxD : Nat) : ∀ (v : Json) (d : Nat),
    d + depthJ v ≤ maxD → dCount maxD v d = totalCount v
  | .null, d => by
    intro h
    unfold dCount totalCount depthJ at *
    try dsimp only
    split_ifs <;> (try dsimp only) <;> omega
  | .bool b, d => by
    intro h
    unfold dCount totalCount depthJ at *
    try dsimp only
    split_ifs <;> (try dsimp only) <;> omega
  | .num m e, d => by
    intro h
    unfold dCount totalCount depthJ at *
    try dsimp only
    split_ifs <;> (try dsimp only) <;> omega
  | .str s, d => by
    intro h
    unfold dCount totalCount depthJ at *
    try dsimp only
    split_ifs <;> (try dsimp only) <;> omega
  | .arr items, d => by
    intro h
    unfold dCount totalCount depthJ at *
    dsimp only
    rw [dCountElems_eq maxD items d (by omega)]
    split_ifs <;> omega
  | .obj fields, d => by
    intro h
    unfold dCount totalCount depthJ at *
    dsimp only
    rw [dCountFields_eq maxD fields d (by omega)]
    split_ifs <;> omega

theorem dCountElems_eq (maxD : Nat) : ∀ (l : List Json) (d : Nat),
    d + depthJElems l ≤ maxD → dCountElems maxD l d = totalCountElems l
  | [], d => by
    intro h
    rfl
  | v :: vs, d => by
    intro h
    unfold dCountElems totalCountElems depthJElems at *
    rw [dCount_eq_totalCount maxD v (d + 1) (by omega), dCountElems_eq maxD vs d (by omega)]

theorem dCountFields_eq (maxD : Nat) : ∀ (l : List (String × Json)) (d : Nat),
    d + depthJFields l ≤ maxD → dCountFields maxD l d = totalCountFields l
  | [], d => by
    intro h
    rfl
  | kv :: kvs, d => by
    intro h
    unfold dCountFields totalCountFields depthJFields at *
    rw [dCount_eq_totalCount maxD kv.2 (d + 1) (by omega), dCountFields_eq maxD kvs d (by omega)]

end

/-- The reported node count, in closed form. -/
theorem analyze_nodeCount (v : Json) (maxD maxN : Nat) :
    (analyzeJsonStructure v maxD maxN).nodeCount = min maxN (dCount maxD v 0) := by
  unfold analyzeJsonStructure
  dsimp only
  rw [traverseT_count maxD maxN v 0 ⟨0, 0⟩ (by dsimp only; omega)]
  dsimp only
  omega


/-- Scalar payload of a heap cell in the defensive value-graph model. -/
inductive JScalar where
  | null : JScalar
  | bool (b : Bool) : JScalar
  | num (mant exp : Int) : JScalar
  | str (s : String) : JScalar
deriving Repr, DecidableEq

/-- One cell of a JavaScript object graph: composite cells hold references
(heap indices) to their children, so pre-existing cyclic host objects — the
case the source's `visited` WeakSet defends against — are representable.
A dangling index behaves like the scalar `undefined` (counted, no children),
which is what the source's `traverse` does with any non-object value. -/
inductive JCell where
  | scalar (s : JScalar) : JCell
  | arrG (elems : List Nat) : JCell
  | objG (fields : List (String × Nat)) : JCell
deriving Repr, DecidableEq

/-- Analyzer state for the graph traversal: the mutable `nodeCount`, `depth`
and the `visited` identity set (reference identity = heap index). -/
structure GState where
  nodeCount : Nat
  depth : Nat
  visited : List Nat
deriving Repr, DecidableEq

mutual

/-- The `traverse` closure of `analyzeJsonStructure` on the graph model,
with the `visited.has`/`visited.add` cycle guard of the source.  The `fuel`
argument only justifies the recursion to Lean: `traverseGraph_fuel` below
shows any fuel above `maxNodes - nodeCount` gives the same run, because
every recursive call happens with a strictly larger `nodeCount`, so the
JavaScript recursion (and this embedding at the ample fuel `maxNodes + 1`
used by `analyzeJsonGraph`) terminates. -/
def traverseGraph (heap : List JCell) (maxDepth maxNodes : Nat)
    (fuel id currentDepth : Nat) (st : GState) : GState :=
  match fuel with
  | 0 => st
  | fuel + 1 =>
    if st.nodeCount ≥ maxNodes then st
    else if currentDepth > maxDepth then st
    else
      let st1 : GState := ⟨st.nodeCount + 1, max st.depth currentDepth, st.visited⟩
      match heap.get? id with
      | some (.arrG elems) =>
        if st1.visited.contains id then st1
        else traverseGraphElems heap maxDepth maxNodes fuel elems currentDepth
          ⟨st1.nodeCount, st1.depth, id :: st1.visited⟩
      | some (.objG fields) =>
        if st1.visited.contains id then st1
        else traverseGraphFields heap maxDepth maxNodes fuel fields currentDepth
          ⟨st1.nodeCount, st1.depth, id :: st1.visited⟩
      | _ => st1
termination_by (fuel, 0)

def traverseGraphElems (heap : List JCell) (maxDepth maxNodes : Nat)
    (fuel : Nat) (l : List Nat) (currentDepth : Nat) (st : GState) : GState :=
  match l with
  | [] => st
  | c :: cs =>
    if st.nodeCount < maxNodes then
      traverseGraphElems heap maxDepth maxNodes fuel cs currentDepth
        (traverseGraph heap maxDepth maxNodes fuel c (currentDepth + 1) st)
    else st
termination_by (fuel, l.length + 1)

def traverseGraphFields (heap : List JCell) (maxDepth maxNodes : Nat)
    (fuel : Nat) (l : List (String × Nat)) (currentDepth : Nat) (st : GState) : GState :=
  match l with
  | [] => st
  | kv :: kvs =>
    if st.nodeCount < maxNodes then
      traverseGraphFields heap maxDepth maxNodes fuel kvs currentDepth
        (traverseGraph heap maxDepth maxNodes fuel kv.2 (currentDepth + 1) st)
    else st
termination_by (fuel, l.length + 1)

end

/-- `getJsonType` read through a heap reference. -/
def getJsonTypeG (heap : List JCell) (id : Nat) : String :=
  match heap.get? id with
  | some (.scalar .null) => "null"
  | some (.scalar (.bool _)) => "boolean"
  | some (.scalar (.num _ _)) => "number"
  | some (.scalar (.str _)) => "string"
  | some (.arrG _) => "array"
  | some (.objG _) => "object"
  | none => "unknown"

/-- `analyzeJsonStructure` on the graph model (same budgets, same zeroed
start state, same hard-coded `hasCircularReferences: false`). -/
def analyzeJsonGraph (heap : List JCell) (root : Nat)
    (maxDepth : Nat := 100) (maxNodes : Nat := 10000) : AnalyzeOut :=
  let s := traverseGraph heap maxDepth maxNodes (maxNodes + 1) root 0 ⟨0, 0, []⟩
  { depth := s.depth
    nodeCount := s.nodeCount
    type := getJsonTypeG heap root
    hasCircularReferences := false }


mutual

/-- The graph traversal only ever grows the node counter, and never grows it
past `maxNodes` (starting in budget). -/
theorem traverseGraph_mono (heap : List JCell) (maxD maxN : Nat) :
    ∀ (fuel id d : Nat) (st : GState),
    st.nodeCount ≤ (traverseGraph heap maxD maxN fuel id d st).nodeCount ∧
    (traverseGraph heap maxD maxN fuel id d st).nodeCount ≤ max st.nodeCount maxN
  | 0, id, d, st => by
    unfold traverseGraph
    omega
  | fuel + 1, id, d, st => by
    unfold traverseGraph
    dsimp only
    split_ifs with h1 h2 h3
    · omega
    · omega
    · cases hcell : heap.get? id with
      | none =>
        dsimp only
        omega
      | some cell =>
        cases cell <;> dsimp only <;> omega
    · cases hcell : heap.get? id with
      | none =>
        dsimp only
        omega
      | some cell =>
        cases cell with
        | scalar sc =>
          dsimp only
          omega
        | arrG elems =>
          have h4 := traverseGraphElems_mono heap maxD maxN fuel elems d
            ⟨st.nodeCount + 1, max st.depth d, id :: st.visited⟩
          dsimp only at h4 ⊢
          omega
        | objG fields =>
          have h4 := traverseGraphFields_mono heap maxD maxN fuel fields d
            ⟨st.nodeCount + 1, max st.depth d, id :: st.visited⟩
          dsimp only at h4 ⊢
          omega
termination_by fuel id d st => (fuel, 0)

theorem traverseGraphElems_mono (heap : List JCell) (maxD maxN : Nat) :
    ∀ (fuel : Nat) (l : List Nat) (d : Nat) (st : GState),
    st.nodeCount ≤ (traverseGraphElems heap maxD maxN fuel l d st).nodeCount ∧
    (traverseGraphElems heap maxD maxN fuel l d st).nodeCount ≤ max st.nodeCount maxN
  | fuel, [], d, st => by
    unfold traverseGraphElems
    omega
  | fuel, c :: cs, d, st => by
    have h1 := traverseGraph_mono heap maxD maxN fuel c (d + 1) st
    have h2 := traverseGraphElems_mono heap maxD maxN fuel cs d
      (traverseGraph heap maxD maxN fuel c (d + 1) st)
    unfold traverseGraphElems
    try dsimp only
    split_ifs with h3
    · omega
    · omega
termination_by fuel l d st => (fuel, l.length + 1)

theorem traverseGraphFields_mono (heap : List JCell) (maxD maxN : Nat) :
    ∀ (fuel : Nat) (l : List (String × Nat)) (d : Nat) (st : GState),
    st.nodeCount ≤ (traverseGraphFields heap maxD maxN fuel l d st).nodeCount ∧
    (traverseGraphFields heap maxD maxN fuel l d st).nodeCount ≤ max st.nodeCount maxN
  | fuel, [], d, st => by
    unfold traverseGraphFields
    omega
  | fuel, kv :: kvs, d, st => by
    have h1 := traverseGraph_mono heap maxD maxN fuel kv.2 (d + 1) st
    have h2 := traverseGraphFields_mono heap maxD maxN fuel kvs d
      (traverseGraph heap maxD maxN fuel kv.2 (d + 1) st)
    unfold traverseGraphFields
    try dsimp only
    split_ifs with h3
    · omega
    · omega
termination_by fuel l d st => (fuel, l.length + 1)

end

mutual

/-- Fuel is irrelevant above `maxNodes - nodeCount`: every recursive call of
the source's `traverse` strictly grows the shared counter, so its recursion
depth is bounded and the JavaScript original terminates; this embedding runs
it with ample fuel. -/
theorem traverseGraph_fuel (heap : List JCell) (maxD maxN : Nat) :
    ∀ (f g id d : Nat) (st : GState),
    maxN ≤ st.nodeCount + f → maxN ≤ st.nodeCount + g →
    traverseGraph heap maxD maxN f id d st = traverseGraph heap maxD maxN g id d st
  | 0, g, id, d, st => by
    intro hf hg
    cases g with
    | zero => rfl
    | succ g =>
      unfold traverseGraph
      dsimp only
      rw [if_pos (by omega : st.nodeCount ≥ maxN)]
  | f + 1, g, id, d, st => by
    intro hf hg
    cases g with
    | zero =>
      unfold traverseGraph
      dsimp only
      rw [if_pos (by omega : st.nodeCount ≥ maxN)]
    | succ g =>
      by_cases h1 : st.nodeCount ≥ maxN
      · unfold traverseGraph
        dsimp only
        rw [if_pos h1, if_pos h1]
      · unfold traverseGraph
        dsimp only
        rw [if_neg h1, if_neg h1]
        by_cases h2 : d > maxD
        · rw [if_pos h2, if_pos h2]
        · rw [if_neg h2, if_neg h2]
          cases hcell : heap.get? id with
          | none => rfl
          | some cell =>
            cases cell with
            | scalar sc => rfl
            | arrG elems =>
              dsimp only
              split_ifs with h3
              · rfl
              · exact traverseGraphElems_fuel heap maxD maxN f g elems d
                  ⟨st.nodeCount + 1, max st.depth d, id :: st.visited⟩
                  (by dsimp only; omega) (by dsimp only; omega)
            | objG fields =>
              dsimp only
              split_ifs with h3
              · rfl
              · exact traverseGraphFields_fuel heap maxD maxN f g fields d
                  ⟨st.nodeCount + 1, max st.depth d, id :: st.visited⟩
                  (by dsimp only; omega) (by dsimp only; omega)
termination_by f g id d st => (f, 0)

theorem traverseGraphElems_fuel (heap : List JCell) (maxD maxN : Nat) :
    ∀ (f g : Nat) (l : List Nat) (d : Nat) (st : GState),
    maxN ≤ st.nodeCount + f → maxN ≤ st.nodeCount + g →
    traverseGraphElems heap maxD maxN f l d st = traverseGraphElems heap maxD maxN g l d st
  | f, g, [], d, st => by
    intro hf hg
    unfold traverseGraphElems
    rfl
  | f, g, c :: cs, d, st => by
    intro hf hg
    unfold traverseGraphElems
    try dsimp only
    split_ifs with h3
    · rw [traverseGraph_fuel heap maxD maxN f g c (d + 1) st hf hg]
      have hm := traverseGraph_mono heap maxD maxN g c (d + 1) st
      exact traverseGraphElems_fuel heap maxD maxN f g cs d
        (traverseGraph heap maxD maxN g c (d + 1) st) (by omega) (by omega)
    · rfl
termination_by f g l d st => (f, l.length + 1)

theorem traverseGraphFields_fuel (heap : List JCell) (maxD maxN : Nat) :
    ∀ (f g : Nat) (l : List (String × Nat)) (d : Nat) (st : GState),
    maxN ≤ st.nodeCount + f → maxN ≤ st.nodeCount + g →
    traverseGraphFields heap maxD maxN f l d st = traverseGraphFields heap maxD maxN g l d st
  | f, g, [], d, st => by
    intro hf hg
    unfold traverseGraphFields
    rfl
  | f, g, kv :: kvs, d, st => by
    intro hf hg
    unfold traverseGraphFields
    try dsimp only
    split_ifs with h3
    · rw [traverseGraph_fuel heap maxD maxN f g kv.2 (d + 1) st hf hg]
      have hm := traverseGraph_mono heap maxD maxN g kv.2 (d + 1) st
      exact traverseGraphFields_fuel heap maxD maxN f g kvs d
        (traverseGraph heap maxD maxN g kv.2 (d + 1) st) (by omega) (by omega)
    · rfl
termination_by f g l d st => (f, l.length + 1)

end


/-- JSON whitespace (RFC 8259): space, tab, line feed, carriage return. -/
def isJsonWs (c : Char) : Bool :=
  c = ' ' || c = '\t' || c = '\n' || c = '\r'

/-- Skip insignificant whitespace. -/
def skipWs (l : List Char) : List Char := l.dropWhile isJsonWs

/-- The whitespace set of `String.prototype.trim`: ASCII whitespace, NBSP,
BOM and the two line separators (the remaining Unicode `Zs` members are
omitted from the model).  It contains every JSON whitespace character and no
character that can begin or end a JSON value. -/
def isJsTrimWs (c : Char) : Bool :=
  c = ' ' || c = '\t' || c = '\n' || c = '\r' || c = Char.ofNat 11 || c = Char.ofNat 12 ||
  c = Char.ofNat 160 || c = Char.ofNat 65279 || c = Char.ofNat 8232 || c = Char.ofNat 8233

/-- `String.prototype.trim` on the character list. -/
def jsTrimL (l : List Char) : List Char :=
  ((l.dropWhile isJsTrimWs).reverse.dropWhile isJsTrimWs).reverse

/-- `jsonString.trim()`. -/
def jsTrim (s : String) : String := String.mk (jsTrimL s.data)

/-- Numeric value of one hexadecimal digit. -/
def hexVal (c : Char) : Option Nat :=
  if c.isDigit then some (c.toNat - 48)
  else if 'a' ≤ c && c ≤ 'f' then some (c.toNat - 87)
  else if 'A' ≤ c && c ≤ 'F' then some (c.toNat - 55)
  else none

/-- The single-character escapes of a JSON string. -/
def escChar (c : Char) : Option Char :=
  if c = '"' then some '"'
  else if c = '\\' then some '\\'
  else if c = '/' then some '/'
  else if c = 'b' then some (Char.ofNat 8)
  else if c = 'f' then some (Char.ofNat 12)
  else if c = 'n' then some '\n'
  else if c = 'r' then some '\r'
  else if c = 't' then some '\t'
  else none

/-- Decode a `\\uXXXX` escape's four hexadecimal digits into a character
(through `Char.ofNat`'s total default for surrogate halves). -/
def hex4 (h1 h2 h3 h4 : Char) : Option Char :=
  match hexVal h1 with
  | none => none
  | some a =>
    match hexVal h2 with
    | none => none
    | some b =>
      match hexVal h3 with
      | none => none
      | some x =>
        match hexVal h4 with
        | none => none
        | some y => some (Char.ofNat (((a * 16 + b) * 16 + x) * 16 + y))

/-- Scan the body of a JSON string literal (the opening quote already
consumed), decoding escapes, rejecting raw control characters, stopping at
the closing quote.  `\uXXXX` escapes decode through `Char.ofNat`, whose
total default stands in for UTF-16 surrogate halves. -/
def scanStringAux : List Char → List Char → Option (String × List Char)
  | [], _ => none
  | c :: r, acc =>
    if c = '"' then some (String.mk acc.reverse, r)
    else if c = '\\' then
      match r with
      | [] => none
      | e :: r2 =>
        if e = 'u' then
          match r2 with
          | h1 :: h2 :: h3 :: h4 :: r3 =>
            match hex4 h1 h2 h3 h4 with
            | some x => scanStringAux r3 (x :: acc)
            | none => none
          | _ => none
        else
          match escChar e with
          | some ec => scanStringAux r2 (ec :: acc)
          | none => none
    else if c.toNat < 32 then none
    else scanStringAux r (c :: acc)

/-- The characters a JSON number lexeme may consist of: the maximal munch of
this class, validated by `parseNumLexeme`, is how the parser reads a number.
In any valid document a number token is followed by whitespace, a comma, a
closing bracket or the end, never by a character of this class, so maximal
munch agrees with the RFC grammar. -/
def isNumChar (c : Char) : Bool :=
  c.isDigit || c = '-' || c = '+' || c = '.' || c = 'e' || c = 'E'

/-- Decimal digits read as a natural number. -/
def digitsToNat (l : List Char) : Nat :=
  l.foldl (fun a c => a * 10 + (c.toNat - 48)) 0

/-- Strip one optional leading `+` or `-`. -/
def jsSignStrip (l : List Char) : List Char :=
  match l with
  | [] => []
  | c :: r => if c = '+' || c = '-' then r else c :: r

/-- Strip the optional leading minus sign of a JSON number. -/
def splitNeg (l : List Char) : Bool × List Char :=
  match l with
  | '-' :: r => (true, r)
  | _ => (false, l)

/-- The integer part `0 | [1-9][0-9]*` of a JSON number: its digits and the
rest.  A leading zero followed by more digits is refused. -/
def jsonIntPart (l : List Char) : Option (List Char × List Char) :=
  let ds := l.takeWhile Char.isDigit
  if ds = [] then none
  else if 2 ≤ ds.length && ds.head? = some '0' then none
  else some (ds, l.dropWhile Char.isDigit)

/-- The optional fraction part `(. [0-9]+)?`: its digits (possibly none when
there is no dot) and the rest. -/
def jsonFracPart (l : List Char) : Option (List Char × List Char) :=
  match l with
  | '.' :: r =>
    if r.takeWhile Char.isDigit = [] then none
    else some (r.takeWhile Char.isDigit, r.dropWhile Char.isDigit)
  | _ => some ([], l)

/-- The sign factor of an exponent part. -/
def jsExpSign (l : List Char) : Int :=
  match l with
  | '-' :: _ => -1
  | _ => 1

/-- The optional exponent part `([eE] [+-]? [0-9]+)?`: its signed value
(zero when there is no exponent) and the rest. -/
def jsonExpPart (l : List Char) : Option (Int × List Char) :=
  match l with
  | [] => some (0, [])
  | c :: r =>
    if c = 'e' || c = 'E' then
      if (jsSignStrip r).takeWhile Char.isDigit = [] then none
      else some (jsExpSign r * Int.ofNat (digitsToNat ((jsSignStrip r).takeWhile Char.isDigit)),
        (jsSignStrip r).dropWhile Char.isDigit)
    else some (0, c :: r)

/-- Validate a maximal-munch lexeme against the RFC 8259 number grammar
`-? (0 | [1-9][0-9]*) (. [0-9]+)? ([eE] [+-]? [0-9]+)?` and read its value
as decimal mantissa and exponent. -/
def parseNumLexeme (l : List Char) : Option (Int × Int) :=
  let nl := splitNeg l
  match jsonIntPart nl.2 with
  | none => none
  | some (ids, r1) =>
    match jsonFracPart r1 with
    | none => none
    | some (fds, r2) =>
      match jsonExpPart r2 with
      | none => none
      | some (ev, r3) =>
        if r3 = [] then
          let mant : Int := Int.ofNat (digitsToNat (ids ++ fds))
          some (if nl.1 then -mant else mant, ev - Int.ofNat fds.length)
        else none

/-- One hexadecimal digit, for `Number`'s radix literals. -/
def isHexDigitChar (c : Char) : Bool :=
  c.isDigit || ('a' ≤ c && c ≤ 'f') || ('A' ≤ c && c ≤ 'F')

/-- Tail of an ECMAScript StrUnsignedDecimalLiteral after its leading digits
and optional fraction: an optional exponent part and nothing else. -/
def ecmaExpEnd (l : List Char) : Bool :=
  match l with
  | [] => true
  | c :: r =>
    (c = 'e' || c = 'E') &&
      (decide (jsSignStrip r ≠ []) && (jsSignStrip r).all Char.isDigit)

/-- After the integer digits of a StrUnsignedDecimalLiteral: an optional
fraction, then an optional exponent, then the end. -/
def ecmaAfterDigits (l : List Char) : Bool :=
  match l with
  | [] => true
  | c :: r =>
    if c = '.' then ecmaExpEnd (r.dropWhile Char.isDigit)
    else ecmaExpEnd (c :: r)

/-- An ECMAScript StrUnsignedDecimalLiteral other than `Infinity`:
`digits (. digits*)? exp?` or `. digits+ exp?`. -/
def ecmaDecimalCheck (l : List Char) : Bool :=
  match l with
  | [] => false
  | c :: r =>
    if c = '.' then
      decide (r.takeWhile Char.isDigit ≠ []) && ecmaExpEnd (r.dropWhile Char.isDigit)
    else
      decide ((c :: r).takeWhile Char.isDigit ≠ []) &&
        ecmaAfterDigits ((c :: r).dropWhile Char.isDigit)

/-- An unsigned ECMAScript binary/octal/hexadecimal integer literal. -/
def jsRadixCheck (l : List Char) : Bool :=
  match l with
  | c0 :: c :: r =>
    c0 = '0' &&
      (((c = 'x' || c = 'X') && decide (r ≠ []) && r.all isHexDigitChar) ||
       ((c = 'o' || c = 'O') && decide (r ≠ []) && r.all (fun d => '0' ≤ d && d ≤ '7')) ||
       ((c = 'b' || c = 'B') && decide (r ≠ []) && r.all (fun d => d = '0' || d = '1')))
  | _ => false

/-- Modelled ECMAScript `!isNaN(Number(s))` for an already-trimmed `s`:
whether `s` parses as a StrNumericLiteral — an optionally signed decimal
literal or `Infinity`, or an unsigned binary/octal/hexadecimal literal.
`Number` accepts every JSON number lexeme (`parseNumLexeme_jsAccepts`) and
more (signs, `Infinity`, leading zeros, trailing or bare dots, radix
prefixes); nothing in this development depends on the extra forms. -/
def jsNumberAccepts (s : String) : Bool :=
  let l := s.data
  let l1 := jsSignStrip l
  jsRadixCheck l || decide (l1 = "Infinity".data) || ecmaDecimalCheck l1


/-- `obj[key] = value` while materializing an object: a repeated name keeps
its first position and takes the last value, as ECMAScript property
assignment does. -/
def objInsert (fields : List (String × Json)) (k : String) (v : Json) : List (String × Json) :=
  if fields.any (fun kv => kv.1 = k) then
    fields.map (fun kv => if kv.1 = k then (k, v) else kv)
  else fields ++ [(k, v)]

mutual

/-- Recursive-descent reading of one JSON value at the head of the input
(leading whitespace already skipped), returning the value and the unread
suffix.  This is the model of the host's `JSON.parse` (RFC 8259 / ECMA-404
grammar).  The fuel argument only justifies the recursion to Lean;
`parseVal_liberal` shows any fuel from twice the consumed length up runs
identically, and `jsonParse` supplies ample fuel. -/
def parseVal : Nat → List Char → Option (Json × List Char)
  | 0, _ => none
  | fuel + 1, l =>
    match l with
    | [] => none
    | c :: r =>
      if c = '{' then
        match skipWs r with
        | '}' :: r2 => some (Json.obj [], r2)
        | r1 => parseMembers fuel r1 []
      else if c = '[' then
        match skipWs r with
        | ']' :: r2 => some (Json.arr [], r2)
        | r1 => parseElems fuel r1 []
      else if c = '"' then
        match scanStringAux r [] with
        | some (s, r1) => some (Json.str s, r1)
        | none => none
      else if c = 't' then
        if l.take 4 = ['t', 'r', 'u', 'e'] then some (Json.bool true, l.drop 4) else none
      else if c = 'f' then
        if l.take 5 = ['f', 'a', 'l', 's', 'e'] then some (Json.bool false, l.drop 5) else none
      else if c = 'n' then
        if l.take 4 = ['n', 'u', 'l', 'l'] then some (Json.null, l.drop 4) else none
      else if c = '-' || c.isDigit then
        match parseNumLexeme (l.takeWhile isNumChar) with
        | some (m, e) => some (Json.num m e, l.dropWhile isNumChar)
        | none => none
      else none

/-- The member list of a non-empty object, the input standing at the opening
quote of a key. -/
def parseMembers : Nat → List Char → List (String × Json) → Option (Json × List Char)
  | 0, _, _ => none
  | fuel + 1, l, acc =>
    match l with
    | c :: r =>
      if c = '"' then
        match scanStringAux r [] with
        | some (k, r1) =>
          match skipWs r1 with
          | c2 :: r2 =>
            if c2 = ':' then
              match parseVal fuel (skipWs r2) with
              | some (v, r3) =>
                match skipWs r3 with
                | c3 :: r4 =>
                  if c3 = ',' then parseMembers fuel (skipWs r4) (objInsert acc k v)
                  else if c3 = '}' then some (Json.obj (objInsert acc k v), r4)
                  else none
                | [] => none
              | none => none
            else none
          | [] => none
        | none => none
      else none
    | [] => none

/-- The element list of a non-empty array, the input standing at the first
character of an element. -/
def parseElems : Nat → List Char → List Json → Option (Json × List Char)
  | 0, _, _ => none
  | fuel + 1, l, acc =>
    match parseVal fuel l with
    | some (v, r1) =>
      match skipWs r1 with
      | c :: r2 =>
        if c = ',' then parseElems fuel (skipWs r2) (acc ++ [v])
        else if c = ']' then some (Json.arr (acc ++ [v]), r2)
        else none
      | [] => none
    | none => none

end

/-- The model of `JSON.parse(text)`: optional whitespace, one value,
optional whitespace, the end — anything else is a syntax error (`none`). -/
def jsonParse (s : String) : Option Json :=
  match parseVal (2 * s.length + 2) (skipWs s.data) with
  | some (v, rest) => if skipWs rest = [] then some v else none
  | none => none

/-- `isValidJsonSyntax` from `json-parser.ts`: reject empty input, trim,
fast-reject on the first/last character (or literal equality, or
`!isNaN(Number(trimmed))`), then `try { JSON.parse(trimmed) }`. -/
def isValidJsonSyntax (jsonString : String) : Bool :=
  if jsonString = "" then false
  else
    let t := jsTrim jsonString
    match t.data with
    | [] => false
    | c :: cs =>
      let lastC := List.getLastD (c :: cs) c
      if (c = '{' && lastC = '}') || (c = '[' && lastC = ']') || (c = '"' && lastC = '"') ||
          t = "true" || t = "false" || t = "null" || jsNumberAccepts t then
        (jsonParse t).isSome
      else false

/-- The options record of `parseJsonString`, with the source's defaults. -/
structure JsonParseOptions where
  maxDepth : Nat := 100
  maxNodes : Nat := 10000
  strict : Bool := false
deriving Repr, DecidableEq

/-- The metadata record of a `ParseResult`.  `parseTime` (a wall-clock
reading) is not modelled. -/
structure ParseMetadata where
  size : Nat
  depth : Nat
  nodeCount : Nat
  type : String
  isValid : Bool
deriving Repr, DecidableEq

/-- `ParseResult` from `json-parser.ts`; `data` is `none` where the source
leaves the field `null` on failure. -/
structure ParseResult where
  data : Option Json
  metadata : ParseMetadata
  errors : List String
  warnings : List String
deriving Repr, DecidableEq

/-- `parseJsonString(jsonString, options)` from `json-parser.ts`.  The
`catch` branch's interpolated host message is abbreviated to its fixed
prefix; nothing depends on the message text. -/
def parseJsonString (jsonString : String) (options : JsonParseOptions := {}) : ParseResult :=
  let maxDepth := options.maxDepth
  let maxNodes := options.maxNodes
  let strict := options.strict
  let base : ParseResult :=
    { data := none
      metadata :=
        { size := jsonString.length
          depth := 0
          nodeCount := 0
          type := "unknown"
          isValid := false }
      errors := []
      warnings := [] }
  if isValidJsonSyntax jsonString = false then
    { base with errors := ["Invalid JSON syntax"] }
  else
    match jsonParse jsonString with
    | none => { base with errors := ["JSON Parse Error"] }
    | some parsed =>
      let analysis := analyzeJsonStructure parsed maxDepth maxNodes
      let aDepth := analysis.depth
      let aCount := analysis.nodeCount
      let depthWarn : List String :=
        if aDepth > maxDepth then
          [s!"JSON depth ({aDepth}) exceeds recommended limit ({maxDepth})"] else []
      let nodeWarn : List String :=
        if aCount > maxNodes then
          [s!"Node count ({aCount}) exceeds limit ({maxNodes})"] else []
      { data := some parsed
        metadata :=
          { size := jsonString.length
            depth := aDepth
            nodeCount := aCount
            type := analysis.type
            isValid := if aCount > maxNodes && strict then false else true }
        errors := if aCount > maxNodes && strict then ["Too many nodes for processing"] else []
        warnings := depthWarn ++ nodeWarn }


/-- The head of `l`, if there is one, fails `p`. -/
def headNot (p : Char → Bool) (l : List Char) : Prop :=
  ∀ c, l.head? = some c → p c = false

theorem headNot_nil (p : Char → Bool) : headNot p [] := by
  intro c hc
  simp at hc

theorem headNot_cons {p : Char → Bool} {c : Char} (l : List Char) (h : p c = false) :
    headNot p (c :: l) := by
  intro x hx
  simp at hx
  subst hx
  exact h

theorem all_takeWhile (p : Char → Bool) : ∀ l : List Char, (l.takeWhile p).all p = true
  | [] => rfl
  | c :: l => by
    by_cases h : p c = true
    · simp [List.takeWhile, h, all_takeWhile p l]
    · simp [List.takeWhile, h]

theorem headNot_dropWhile (p : Char → Bool) : ∀ l : List Char, headNot p (l.dropWhile p)
  | [] => headNot_nil p
  | c :: l => by
    by_cases h : p c = true
    · simpa [List.dropWhile, h] using headNot_dropWhile p l
    · simpa [List.dropWhile, h] using headNot_cons l (by simpa using h)

theorem append_of_all_headNot {p : Char → Bool} :
    ∀ (l t : List Char), l.all p = true → headNot p t →
      (l ++ t).takeWhile p = l ∧ (l ++ t).dropWhile p = t
  | [], t => by
    intro _ ht
    constructor
    · cases t with
      | nil => rfl
      | cons c r => simp [List.takeWhile, ht c rfl]
    · cases t with
      | nil => rfl
      | cons c r => simp [List.dropWhile, ht c rfl]
  | c :: l, t => by
    intro hall ht
    simp at hall
    have ih := append_of_all_headNot l t (by simpa using hall.2) ht
    constructor
    · simp [List.takeWhile, hall.1, ih.1]
    · simp [List.dropWhile, hall.1, ih.2]

/-- Whitespace skipping splits the input into an all-whitespace margin and a
suffix that starts with a non-whitespace character. -/
theorem skipWs_decomp (r : List Char) :
    r = r.takeWhile isJsonWs ++ skipWs r ∧ (r.takeWhile isJsonWs).all isJsonWs = true ∧
      headNot isJsonWs (skipWs r) :=
  ⟨(List.takeWhile_append_dropWhile isJsonWs r).symm, all_takeWhile isJsonWs r,
    headNot_dropWhile isJsonWs r⟩

/-- Skipping whitespace runs through an all-whitespace prefix and stops at a
non-whitespace head. -/
theorem skipWs_concat {w l : List Char} (hw : w.all isJsonWs = true)
    (hl : headNot isJsonWs l) : skipWs (w ++ l) = l :=
  (append_of_all_headNot w l hw hl).2

theorem isNumChar_of_ws {c : Char} (h : isJsonWs c = true) : isNumChar c = false := by
  simp only [isJsonWs, Bool.or_eq_true, decide_eq_true_eq] at h
  rcases h with ((h | h) | h) | h <;> subst h <;> decide

/-- Decomposition and suffix-independence of the string-literal scanner: a
successful scan consumes `mid` plus the closing quote, and re-running it on
that same lexeme followed by any other suffix succeeds identically. -/
theorem scanString_decomp :
    ∀ (n : Nat) (l acc : List Char) (s : String) (rest : List Char),
      l.length ≤ n → scanStringAux l acc = some (s, rest) →
      ∃ mid, l = mid ++ '"' :: rest ∧
        ∀ t2, scanStringAux (mid ++ '"' :: t2) acc = some (s, t2)
  | _, [], acc, s, rest => by
    intro hn h
    rw [scanStringAux.eq_def] at h
    dsimp only at h
    exact absurd h (by simp)
  | 0, c :: r, acc, s, rest => by
    intro hn h
    simp at hn
  | n + 1, c :: r, acc, s, rest => by
    intro hn h
    rw [scanStringAux.eq_def] at h
    dsimp only at h
    by_cases hq : c = '"'
    · rw [if_pos hq] at h
      simp only [Option.some.injEq, Prod.mk.injEq] at h
      subst hq
      refine ⟨[], by simp [h.2], fun t2 => ?_⟩
      rw [List.nil_append, scanStringAux.eq_def]
      dsimp only
      rw [if_pos rfl, h.1]
    · rw [if_neg hq] at h
      by_cases hb : c = '\\'
      · rw [if_pos hb] at h
        subst hb
        cases r with
        | nil => exact absurd h (by simp)
        | cons e r2 =>
          dsimp only at h
          by_cases he : e = 'u'
          · rw [if_pos he] at h
            subst he
            rcases r2 with _ | ⟨h1, _ | ⟨h2, _ | ⟨h3, _ | ⟨h4, r3⟩⟩⟩⟩
            · exact absurd h (by simp)
            · exact absurd h (by simp)
            · exact absurd h (by simp)
            · exact absurd h (by simp)
            · dsimp only at h
              rcases hhex : hex4 h1 h2 h3 h4 with _ | ch <;> rw [hhex] at h
              · exact absurd h (by simp)
              · dsimp only at h
                have hlen : r3.length ≤ n := by
                  simp at hn
                  omega
                obtain ⟨mid3, hsplit3, hre3⟩ := scanString_decomp n r3 _ s rest hlen h
                refine ⟨'\\' :: 'u' :: h1 :: h2 :: h3 :: h4 :: mid3, by simp [hsplit3],
                  fun t2 => ?_⟩
                rw [List.cons_append, List.cons_append, List.cons_append, List.cons_append,
                  List.cons_append, List.cons_append, scanStringAux.eq_def]
                dsimp only
                rw [if_neg (by decide : ¬('\\' = '"')), if_pos rfl, if_pos rfl, hhex]
                exact hre3 t2
          · rw [if_neg he] at h
            rcases hesc : escChar e with _ | ec <;> rw [hesc] at h
            · exact absurd h (by simp)
            · dsimp only at h
              have hlen : r2.length ≤ n := by
                simp at hn
                omega
              obtain ⟨mid2, hsplit2, hre2⟩ := scanString_decomp n r2 _ s rest hlen h
              refine ⟨'\\' :: e :: mid2, by simp [hsplit2], fun t2 => ?_⟩
              rw [List.cons_append, List.cons_append, scanStringAux.eq_def]
              dsimp only
              rw [if_neg (by decide : ¬('\\' = '"')), if_pos rfl, if_neg he, hesc]
              exact hre2 t2
      · rw [if_neg hb] at h
        by_cases hlt : c.toNat < 32
        · rw [if_pos hlt] at h
          exact absurd h (by simp)
        · rw [if_neg hlt] at h
          have hlen : r.length ≤ n := by
            simp at hn
            omega
          obtain ⟨mid1, hsplit1, hre1⟩ := scanString_decomp n r _ s rest hlen h
          refine ⟨c :: mid1, by simp [hsplit1], fun t2 => ?_⟩
          rw [List.cons_append, scanStringAux.eq_def]
          dsimp only
          rw [if_neg hq, if_neg hb, if_neg hlt]
          exact hre1 t2

theorem all_last {p : Char → Bool} :
    ∀ (l : List Char), l ≠ [] → l.all p = true → ∃ mid d, l = mid ++ [d] ∧ p d = true
  | [], h, _ => absurd rfl h
  | [c], _, hall => ⟨[], c, rfl, by simpa using hall⟩
  | c :: c2 :: l, _, hall => by
    simp only [List.all_cons, Bool.and_eq_true] at hall
    obtain ⟨mid, d, hsplit, hd⟩ := all_last (c2 :: l) (by simp)
      (by rw [List.all_cons, Bool.and_eq_true]; exact ⟨hall.2.1, hall.2.2⟩)
    exact ⟨c :: mid, d, by simp [hsplit], hd⟩

theorem dropWhile_nil_all {p : Char → Bool} {l : List Char}
    (h : l.dropWhile p = []) : l.all p = true := by
  have h2 : l = l.takeWhile p := by
    conv_lhs => rw [← List.takeWhile_append_dropWhile p l]
    rw [h, List.append_nil]
  rw [h2]
  exact all_takeWhile p l

theorem isJsonWs_of_digit {d : Char} (h : d.isDigit = true) : isJsonWs d = false := by
  rw [Bool.eq_false_iff]
  intro hw
  simp only [isJsonWs, Bool.or_eq_true, decide_eq_true_eq] at hw
  rcases hw with ((rfl | rfl) | rfl) | rfl <;> exact absurd h (by decide)

theorem isJsTrimWs_of_digit {d : Char} (h : d.isDigit = true) : isJsTrimWs d = false := by
  rw [Bool.eq_false_iff]
  intro hw
  simp only [isJsTrimWs, Bool.or_eq_true, decide_eq_true_eq] at hw
  rcases hw with ((((((((rfl | rfl) | rfl) | rfl) | rfl) | rfl) | rfl) | rfl) | rfl) | rfl <;>
    exact absurd h (by decide)

theorem digit_ne_syms {d : Char} (h : d.isDigit = true) :
    d ≠ '+' ∧ d ≠ '-' ∧ d ≠ '.' ∧ d ≠ '{' ∧ d ≠ '[' ∧ d ≠ '"' ∧ d ≠ 't' ∧ d ≠ 'f' ∧
      d ≠ 'n' ∧ d ≠ 'e' ∧ d ≠ 'E' ∧ d ≠ ']' ∧ d ≠ '}' := by
  refine ⟨?_, ?_, ?_, ?_, ?_, ?_, ?_, ?_, ?_, ?_, ?_, ?_, ?_⟩ <;>
    · intro h2
      subst h2
      exact absurd h (by decide)

theorem jsSignStrip_decomp (r : List Char) : ∃ sp, r = sp ++ jsSignStrip r := by
  cases r with
  | nil => exact ⟨[], rfl⟩
  | cons c t =>
    unfold jsSignStrip
    dsimp only
    by_cases hc : (c = '+' || c = '-') = true
    · rw [if_pos hc]
      exact ⟨[c], rfl⟩
    · rw [if_neg hc]
      exact ⟨[], rfl⟩

theorem splitNeg_decomp (l : List Char) :
    (splitNeg l).1 = true ∧ l = '-' :: (splitNeg l).2 ∨
      (splitNeg l).1 = false ∧ (splitNeg l).2 = l := by
  unfold splitNeg
  split
  · exact Or.inl ⟨rfl, rfl⟩
  · exact Or.inr ⟨rfl, rfl⟩

theorem jsonIntPart_decomp {l ds r : List Char} (h : jsonIntPart l = some (ds, r)) :
    l = ds ++ r ∧ ds ≠ [] ∧ ds.all Char.isDigit = true ∧ headNot Char.isDigit r := by
  unfold jsonIntPart at h
  dsimp only at h
  split_ifs at h with h1 h2
  · simp only [Option.some.injEq, Prod.mk.injEq] at h
    obtain ⟨hds, hr⟩ := h
    subst hds
    subst hr
    exact ⟨(List.takeWhile_append_dropWhile Char.isDigit l).symm, h1,
      all_takeWhile Char.isDigit l, headNot_dropWhile Char.isDigit l⟩

theorem jsonFracPart_decomp {l ds r : List Char} (h : jsonFracPart l = some (ds, r)) :
    (ds = [] ∧ r = l ∧ ∀ t, l ≠ '.' :: t) ∨
      (l = '.' :: (ds ++ r) ∧ ds ≠ [] ∧ ds.all Char.isDigit = true ∧
        headNot Char.isDigit r) := by
  unfold jsonFracPart at h
  split at h
  · rename_i r0
    split_ifs at h with h1
    simp only [Option.some.injEq, Prod.mk.injEq] at h
    obtain ⟨hds, hr⟩ := h
    subst hds
    subst hr
    exact Or.inr ⟨by rw [List.takeWhile_append_dropWhile], h1,
      all_takeWhile Char.isDigit r0, headNot_dropWhile Char.isDigit r0⟩
  · rename_i hnotdot
    simp only [Option.some.injEq, Prod.mk.injEq] at h
    obtain ⟨hds, hr⟩ := h
    subst hds
    subst hr
    exact Or.inl ⟨rfl, rfl, fun t ht => hnotdot t ht⟩

theorem jsonExpPart_done {l : List Char} {ev : Int}
    (h : jsonExpPart l = some (ev, [])) :
    ecmaExpEnd l = true ∧ (l = [] ∨ ∃ mid d, l = mid ++ [d] ∧ d.isDigit = true) := by
  unfold jsonExpPart at h
  split at h
  · exact ⟨rfl, Or.inl rfl⟩
  · rename_i c r
    split_ifs at h with he hds
    · simp only [Option.some.injEq, Prod.mk.injEq] at h
      have hdrop : (jsSignStrip r).dropWhile Char.isDigit = [] := h.2
      have hall : (jsSignStrip r).all Char.isDigit = true := dropWhile_nil_all hdrop
      have hne : jsSignStrip r ≠ [] := by
        intro hnil
        rw [hnil] at hds
        exact hds rfl
      constructor
      · unfold ecmaExpEnd
        simp only [he, Bool.true_and, Bool.and_eq_true, decide_eq_true_eq]
        exact ⟨hne, hall⟩
      · refine Or.inr ?_
        obtain ⟨sp, hsp⟩ := jsSignStrip_decomp r
        obtain ⟨mid, d, hsplit, hd⟩ := all_last (jsSignStrip r) hne hall
        rw [hsplit] at hsp
        refine ⟨c :: sp ++ mid, d, ?_, hd⟩
        rw [hsp]
        simp
    · simp only [Option.some.injEq, Prod.mk.injEq] at h
      exact absurd h.2 (by simp)

theorem jsSignStrip_neg (t : List Char) : jsSignStrip ('-' :: t) = t := by
  unfold jsSignStrip
  dsimp only
  rw [if_pos (by decide)]

theorem jsSignStrip_digit {d0 : Char} (hd : d0.isDigit = true) (t : List Char) :
    jsSignStrip (d0 :: t) = d0 :: t := by
  unfold jsSignStrip
  dsimp only
  rw [if_neg]
  simp [(digit_ne_syms hd).1, (digit_ne_syms hd).2.1]

/-- `Number` accepts anything whose sign-stripped form is an unsigned
decimal literal. -/
theorem jsNumberAccepts_of_decimal {l : List Char}
    (hdec : ecmaDecimalCheck (jsSignStrip l) = true) :
    jsNumberAccepts (String.mk l) = true := by
  unfold jsNumberAccepts
  dsimp only
  rw [hdec]
  simp

/-- Digits followed by a valid fraction/exponent tail form an unsigned
decimal literal. -/
theorem ecmaDecimalCheck_build {ids r1 : List Char} (hne : ids ≠ [])
    (hall : ids.all Char.isDigit = true) (hnot : headNot Char.isDigit r1)
    (hafter : ecmaAfterDigits r1 = true) : ecmaDecimalCheck (ids ++ r1) = true := by
  obtain ⟨d0, ids2, hids⟩ : ∃ d0 ids2, ids = d0 :: ids2 := by
    cases ids with
    | nil => exact absurd rfl hne
    | cons a b => exact ⟨a, b, rfl⟩
  have hd0 : d0.isDigit = true := by
    have h2 := hall
    rw [hids, List.all_cons, Bool.and_eq_true] at h2
    exact h2.1
  have hcons : ids ++ r1 = d0 :: (ids2 ++ r1) := by simp [hids]
  rw [hcons]
  unfold ecmaDecimalCheck
  dsimp only
  rw [if_neg (digit_ne_syms hd0).2.2.1]
  rw [← hcons, (append_of_all_headNot ids r1 hall hnot).1,
    (append_of_all_headNot ids r1 hall hnot).2]
  simp [hne, hafter]

theorem last_digit_build {ids r1 : List Char} (hne : ids ≠ [])
    (hall : ids.all Char.isDigit = true)
    (hlast : r1 = [] ∨ ∃ mid d, r1 = mid ++ [d] ∧ d.isDigit = true) :
    ∃ mid d, ids ++ r1 = mid ++ [d] ∧ d.isDigit = true := by
  rcases hlast with rfl | ⟨mid, d, hsp, hd⟩
  · obtain ⟨mid, d, hsp, hd⟩ := all_last ids hne hall
    exact ⟨mid, d, by simp [hsp], hd⟩
  · refine ⟨ids ++ mid, d, ?_, hd⟩
    rw [hsp]
    simp

/-- What a validated number lexeme looks like from outside: it starts with a
minus sign or a digit, it ends with a digit, and `Number(...)` accepts it. -/
theorem parseNumLexeme_shape {l : List Char} {p : Int × Int}
    (h : parseNumLexeme l = some p) :
    (∃ c cs, l = c :: cs ∧ (c = '-' ∨ c.isDigit = true)) ∧
    (∃ mid d, l = mid ++ [d] ∧ d.isDigit = true) ∧
    jsNumberAccepts (String.mk l) = true := by
  unfold parseNumLexeme at h
  dsimp only at h
  split at h
  · exact absurd h (by simp)
  · rename_i ids r1 heqInt
    split at h
    · exact absurd h (by simp)
    · rename_i fds r2 heqFrac
      split at h
      · exact absurd h (by simp)
      · rename_i ev r3 heqExp
        rcases hr3 : r3 with _ | ⟨c3, t3⟩
        case cons =>
          rw [hr3, if_neg (by simp)] at h
          exact absurd h (by simp)
        subst hr3
        obtain ⟨hsplit1, hne1, hall1, hnot1⟩ := jsonIntPart_decomp heqInt
        obtain ⟨hecma, hlast⟩ := jsonExpPart_done heqExp
        -- facts about the sign-stripped lexeme `ids ++ r1`
        have htail : ecmaAfterDigits r1 = true ∧
            (∃ mid d, ids ++ r1 = mid ++ [d] ∧ d.isDigit = true) := by
          rcases jsonFracPart_decomp heqFrac with ⟨hfds, hr21, hnodot⟩ | hfr
          · rw [hr21] at hecma hlast
            constructor
            · cases r1 with
              | nil => rfl
              | cons c1 t1 =>
                have hc1 : c1 ≠ '.' := by
                  intro h2
                  subst h2
                  exact hnodot t1 rfl
                unfold ecmaAfterDigits
                dsimp only
                rw [if_neg hc1]
                exact hecma
            · exact last_digit_build hne1 hall1 hlast
          · obtain ⟨hr1, hfne, hfall, hfnot⟩ := hfr
            subst hr1
            constructor
            · unfold ecmaAfterDigits
              dsimp only
              rw [if_pos rfl, (append_of_all_headNot fds r2 hfall hfnot).2]
              exact hecma
            · have hfl : ∃ mid d, '.' :: (fds ++ r2) = mid ++ [d] ∧ d.isDigit = true := by
                have hinner : ∃ mid d, fds ++ r2 = mid ++ [d] ∧ d.isDigit = true :=
                  last_digit_build hfne hfall hlast
                obtain ⟨mid, d, hsp, hd⟩ := hinner
                exact ⟨'.' :: mid, d, by rw [hsp]; rfl, hd⟩
              exact last_digit_build hne1 hall1 (Or.inr hfl)
        have hdec1 : ecmaDecimalCheck (ids ++ r1) = true :=
          ecmaDecimalCheck_build hne1 hall1 hnot1 htail.1
        obtain ⟨d0, ids2, hids⟩ : ∃ d0 ids2, ids = d0 :: ids2 := by
          cases ids with
          | nil => exact absurd rfl hne1
          | cons a b => exact ⟨a, b, rfl⟩
        have hd0 : d0.isDigit = true := by
          have h2 := hall1
          rw [hids, List.all_cons, Bool.and_eq_true] at h2
          exact h2.1
        rcases splitNeg_decomp l with ⟨hneg, hl⟩ | ⟨hpos, hl⟩
        · rw [hsplit1] at hl
          obtain ⟨mid, d, hsp, hd⟩ := htail.2
          refine ⟨⟨'-', ids ++ r1, hl, Or.inl rfl⟩,
            ⟨'-' :: mid, d, by rw [hl, hsp]; rfl, hd⟩, ?_⟩
          rw [hl]
          exact jsNumberAccepts_of_decimal (by rw [jsSignStrip_neg]; exact hdec1)
        · rw [hsplit1] at hl
          have hl2 : l = ids ++ r1 := hl.symm
          obtain ⟨mid, d, hsp, hd⟩ := htail.2
          have hcons : l = d0 :: (ids2 ++ r1) := by
            rw [hl2, hids]
            rfl
          refine ⟨⟨d0, ids2 ++ r1, hcons, Or.inr hd0⟩,
            ⟨mid, d, by rw [hl2, hsp], hd⟩, ?_⟩
          rw [hcons]
          exact jsNumberAccepts_of_decimal
            (by rw [jsSignStrip_digit hd0, ← hcons, hl2]; exact hdec1)

/-- The outward shape of the lexeme a successful `parseVal` consumed for a
given value: which characters bracket it (this is what the fast-reject guard
of `isValidJsonSyntax` looks at). -/
def lexShape : Json → List Char → Prop
  | Json.null, lex => lex = ['n', 'u', 'l', 'l']
  | Json.bool true, lex => lex = ['t', 'r', 'u', 'e']
  | Json.bool false, lex => lex = ['f', 'a', 'l', 's', 'e']
  | Json.str _, lex => ∃ mid, lex = '"' :: mid ++ ['"']
  | Json.arr _, lex => ∃ mid, lex = '[' :: mid ++ [']']
  | Json.obj _, lex => ∃ mid, lex = '{' :: mid ++ ['}']
  | Json.num m e, lex => lex.all isNumChar = true ∧ parseNumLexeme lex = some (m, e)

/-- The suffix-side condition under which a value's lexeme re-parses with
the suffix replaced: only a number lexeme can be extended by the following
text, so only there the new suffix must not begin with a number character. -/
def numOK : Json → List Char → Prop
  | Json.num _ _, t => headNot isNumChar t
  | _, _ => True

theorem numOK_trivial {v : Json} (t : List Char) (hv : ∀ m e, v ≠ Json.num m e) :
    numOK v t := by
  cases v <;> first
    | exact trivial
    | exact absurd rfl (hv _ _)

theorem headNot_num_of_ws_delim {w : List Char} (hw : w.all isJsonWs = true) {d : Char}
    (hd : isNumChar d = false) (t : List Char) : headNot isNumChar (w ++ d :: t) := by
  cases w with
  | nil => exact headNot_cons t hd
  | cons c w2 =>
    rw [List.all_cons, Bool.and_eq_true] at hw
    exact headNot_cons _ (isNumChar_of_ws hw.1)

theorem skipWs_ws_delim {w : List Char} (hw : w.all isJsonWs = true) {d : Char}
    (hd : isJsonWs d = false) (t : List Char) : skipWs (w ++ d :: t) = d :: t :=
  skipWs_concat hw (headNot_cons t hd)

/-- A value's lexeme starts with a non-whitespace character that is not a
closing bracket. -/
theorem lexShape_head {v : Json} {lex : List Char} (hs : lexShape v lex) (hne : lex ≠ []) :
    ∃ c cs, lex = c :: cs ∧ isJsonWs c = false ∧ isJsTrimWs c = false ∧
      c ≠ ']' ∧ c ≠ '}' := by
  cases v with
  | null =>
    rw [show lexShape Json.null lex = (lex = ['n', 'u', 'l', 'l']) from rfl] at hs
    exact ⟨'n', _, hs, by decide, by decide, by decide, by decide⟩
  | bool b =>
    cases b with
    | true => exact ⟨'t', _, hs, by decide, by decide, by decide, by decide⟩
    | false => exact ⟨'f', _, hs, by decide, by decide, by decide, by decide⟩
  | str s =>
    obtain ⟨mid, hmid⟩ := hs
    exact ⟨'"', _, hmid, by decide, by decide, by decide, by decide⟩
  | arr items =>
    obtain ⟨mid, hmid⟩ := hs
    exact ⟨'[', _, hmid, by decide, by decide, by decide, by decide⟩
  | obj fields =>
    obtain ⟨mid, hmid⟩ := hs
    exact ⟨'{', _, hmid, by decide, by decide, by decide, by decide⟩
  | num m e =>
    obtain ⟨c, cs, hcons, hc⟩ := (parseNumLexeme_shape hs.2).1
    rcases hc with rfl | hd
    · exact ⟨'-', cs, hcons, by decide, by decide, by decide, by decide⟩
    · exact ⟨c, cs, hcons, isJsonWs_of_digit hd, isJsTrimWs_of_digit hd,
        (digit_ne_syms hd).2.2.2.2.2.2.2.2.2.2.2.1, (digit_ne_syms hd).2.2.2.2.2.2.2.2.2.2.2.2⟩

/-- A value's lexeme ends with a non-whitespace character (the closing
bracket or quote, the last letter of a literal, or a digit). -/
theorem lexShape_last {v : Json} {lex : List Char} (hs : lexShape v lex) (hne : lex ≠ []) :
    ∃ mid d, lex = mid ++ [d] ∧ isJsTrimWs d = false := by
  cases v with
  | null =>
    rw [show lexShape Json.null lex = (lex = ['n', 'u', 'l', 'l']) from rfl] at hs
    exact ⟨['n', 'u', 'l'], 'l', hs, by decide⟩
  | bool b =>
    cases b with
    | true => exact ⟨['t', 'r', 'u'], 'e', hs, by decide⟩
    | false => exact ⟨['f', 'a', 'l', 's'], 'e', hs, by decide⟩
  | str s =>
    obtain ⟨mid, hmid⟩ := hs
    exact ⟨'"' :: mid, '"', by simp [hmid], by decide⟩
  | arr items =>
    obtain ⟨mid, hmid⟩ := hs
    exact ⟨'[' :: mid, ']', by simp [hmid], by decide⟩
  | obj fields =>
    obtain ⟨mid, hmid⟩ := hs
    exact ⟨'{' :: mid, '}', by simp [hmid], by decide⟩
  | num m e =>
    obtain ⟨mid, d, hsp, hd⟩ := (parseNumLexeme_shape hs.2).2.1
    exact ⟨mid, d, hsp, isJsTrimWs_of_digit hd⟩

/-- Any value's lexeme may be followed by a whitespace margin and a delimiter
that is not a number character: the suffix condition `numOK` holds. -/
theorem numOK_ws_delim {v : Json} {w : List Char} (hw : w.all isJsonWs = true) {d : Char}
    (hd : isNumChar d = false) (t : List Char) : numOK v (w ++ d :: t) := by
  cases v
  case num m e => exact headNot_num_of_ws_delim hw hd t
  all_goals exact trivial

mutual

/-- Decomposition and suffix/fuel-independence of the value reader: a success
consumed a lexeme of the value's bracketing shape, and re-running on that
lexeme with any other suffix (not extending a number token) and any fuel from
twice the lexeme's length up succeeds identically. -/
theorem parseVal_decomp : ∀ (fuel : Nat) (l : List Char) (v : Json) (rest : List Char),
    parseVal fuel l = some (v, rest) →
    ∃ lex, l = lex ++ rest ∧ lex ≠ [] ∧ lexShape v lex ∧
      ∀ (t2 : List Char) (g : Nat), numOK v t2 → 2 * lex.length ≤ g →
        parseVal g (lex ++ t2) = some (v, t2)
  | 0, l, v, rest => by
    intro h
    exact absurd h (by simp [parseVal])
  | fuel + 1, l, v, rest => by
    intro h
    cases l with
    | nil => exact absurd h (by simp [parseVal])
    | cons c r =>
      simp only [parseVal] at h
      by_cases hc1 : c = '{'
      · rw [if_pos hc1] at h
        subst hc1
        obtain ⟨hdecomp, hwall, hwhead⟩ := skipWs_decomp r
        split at h
        · rename_i r2 hskip
          simp only [Option.some.injEq, Prod.mk.injEq] at h
          obtain ⟨hv, hrest⟩ := h
          subst hv
          subst hrest
          rw [hskip] at hdecomp
          refine ⟨'{' :: r.takeWhile isJsonWs ++ ['}'], ?_, by simp,
            ⟨r.takeWhile isJsonWs, rfl⟩, ?_⟩
          · conv_lhs => rw [hdecomp]
            simp
          · intro t2 g hnum hg
            have hlen : ('{' :: r.takeWhile isJsonWs ++ ['}']).length =
                (r.takeWhile isJsonWs).length + 2 := by simp
            obtain ⟨g2, rfl⟩ : ∃ g2, g = g2 + 1 := ⟨g - 1, by omega⟩
            rw [show ('{' :: r.takeWhile isJsonWs ++ ['}']) ++ t2
                = '{' :: (r.takeWhile isJsonWs ++ '}' :: t2) by simp]
            simp only [parseVal, if_true]
            rw [skipWs_ws_delim hwall (by decide) t2]
            rfl
        · rename_i hnotbrace
          obtain ⟨lexM, hsplitM, ⟨fields, hvfields⟩, ⟨midM, hmidM⟩, hreM⟩ :=
            parseMembers_decomp fuel (skipWs r) [] v rest h
          rw [hsplitM] at hdecomp
          refine ⟨'{' :: (r.takeWhile isJsonWs ++ lexM), ?_, by simp, ?_, ?_⟩
          · conv_lhs => rw [hdecomp]
            simp
          · rw [hvfields]
            exact ⟨r.takeWhile isJsonWs ++ '"' :: midM, by simp [hmidM]⟩
          · intro t2 g hnum hg
            have hlen : ('{' :: (r.takeWhile isJsonWs ++ lexM)).length =
                (r.takeWhile isJsonWs).length + lexM.length + 1 := by simp
            obtain ⟨g2, rfl⟩ : ∃ g2, g = g2 + 1 := ⟨g - 1, by omega⟩
            rw [show ('{' :: (r.takeWhile isJsonWs ++ lexM)) ++ t2
                = '{' :: (r.takeWhile isJsonWs ++ (lexM ++ t2)) by simp]
            simp only [parseVal, if_true]
            have hlmcons : lexM ++ t2 = '"' :: (midM ++ '}' :: t2) := by simp [hmidM]
            rw [show r.takeWhile isJsonWs ++ (lexM ++ t2)
                = r.takeWhile isJsonWs ++ '"' :: (midM ++ '}' :: t2) by rw [hlmcons]]
            rw [skipWs_ws_delim hwall (by decide) _]
            rw [← hlmcons]
            have := hreM t2 g2 (by omega)
            split
            · rename_i r9 hbad
              rw [hlmcons] at hbad
              exact absurd hbad (by simp)
            · exact this
      · rw [if_neg hc1] at h
        by_cases hc2 : c = '['
        · rw [if_pos hc2] at h
          subst hc2
          obtain ⟨hdecomp, hwall, hwhead⟩ := skipWs_decomp r
          split at h
          · rename_i r2 hskip
            simp only [Option.some.injEq, Prod.mk.injEq] at h
            obtain ⟨hv, hrest⟩ := h
            subst hv
            subst hrest
            rw [hskip] at hdecomp
            refine ⟨'[' :: r.takeWhile isJsonWs ++ [']'], ?_, by simp,
              ⟨r.takeWhile isJsonWs, rfl⟩, ?_⟩
            · conv_lhs => rw [hdecomp]
              simp
            · intro t2 g hnum hg
              have hlen : ('[' :: r.takeWhile isJsonWs ++ [']']).length =
                  (r.takeWhile isJsonWs).length + 2 := by simp
              obtain ⟨g2, rfl⟩ : ∃ g2, g = g2 + 1 := ⟨g - 1, by omega⟩
              rw [show ('[' :: r.takeWhile isJsonWs ++ [']']) ++ t2
                  = '[' :: (r.takeWhile isJsonWs ++ ']' :: t2) by simp]
              simp only [parseVal, if_true]
              rw [if_neg (by decide : ¬('[' = '{')), skipWs_ws_delim hwall (by decide) t2]
              rfl
          · rename_i hnotbracket
            obtain ⟨lexE, hsplitE, ⟨items, hvitems⟩, ⟨midE, hmidE⟩,
              ⟨ce, cse, hconsE, hcews, hcne1, hcne2⟩, hreE⟩ :=
              parseElems_decomp fuel (skipWs r) [] v rest h
            rw [hsplitE] at hdecomp
            refine ⟨'[' :: (r.takeWhile isJsonWs ++ lexE), ?_, by simp, ?_, ?_⟩
            · conv_lhs => rw [hdecomp]
              simp
            · rw [hvitems]
              exact ⟨r.takeWhile isJsonWs ++ midE, by simp [hmidE]⟩
            · intro t2 g hnum hg
              have hlen : ('[' :: (r.takeWhile isJsonWs ++ lexE)).length =
                  (r.takeWhile isJsonWs).length + lexE.length + 1 := by simp
              obtain ⟨g2, rfl⟩ : ∃ g2, g = g2 + 1 := ⟨g - 1, by omega⟩
              rw [show ('[' :: (r.takeWhile isJsonWs ++ lexE)) ++ t2
                  = '[' :: (r.takeWhile isJsonWs ++ (lexE ++ t2)) by simp]
              simp only [parseVal, if_true]
              rw [if_neg (by decide : ¬('[' = '{'))]
              have hlecons : lexE ++ t2 = ce :: (cse ++ t2) := by simp [hconsE]
              rw [show r.takeWhile isJsonWs ++ (lexE ++ t2)
                  = r.takeWhile isJsonWs ++ ce :: (cse ++ t2) by rw [hlecons]]
              rw [skipWs_ws_delim hwall hcews _]
              rw [← hlecons]
              have := hreE t2 g2 (by omega)
              split
              · rename_i r9 hbad
                rw [hlecons] at hbad
                simp only [List.cons.injEq] at hbad
                exact absurd hbad.1 hcne1
              · exact this
        · rw [if_neg hc2] at h
          by_cases hc3 : c = '"'
          · rw [if_pos hc3] at h
            subst hc3
            split at h
            · rename_i s1 r1 hscan
              simp only [Option.some.injEq, Prod.mk.injEq] at h
              obtain ⟨hv, hrest⟩ := h
              subst hv
              subst hrest
              obtain ⟨mid, hsplitS, hreS⟩ := scanString_decomp r.length r [] s1 r1 le_rfl hscan
              refine ⟨'"' :: mid ++ ['"'], ?_, by simp, ⟨mid, by simp⟩, ?_⟩
              · rw [hsplitS]
                simp
              · intro t2 g hnum hg
                have hlen : ('"' :: mid ++ ['"']).length = mid.length + 2 := by simp
                obtain ⟨g2, rfl⟩ : ∃ g2, g = g2 + 1 := ⟨g - 1, by omega⟩
                rw [show ('"' :: mid ++ ['"']) ++ t2 = '"' :: (mid ++ '"' :: t2) by simp]
                simp only [parseVal, if_true]
                rw [if_neg (by decide : ¬('"' = '{')), if_neg (by decide : ¬('"' = '[')),
                  hreS t2]
            · exact absurd h (by simp)
          · rw [if_neg hc3] at h
            by_cases hc4 : c = 't'
            · rw [if_pos hc4] at h
              subst hc4
              split_ifs at h with htake
              simp only [Option.some.injEq, Prod.mk.injEq] at h
              obtain ⟨hv, hrest⟩ := h
              subst hv
              refine ⟨['t', 'r', 'u', 'e'], ?_, by simp, by rfl, ?_⟩
              · conv_lhs => rw [← List.take_append_drop 4 ('t' :: r)]
                rw [htake, hrest]
              · intro t2 g hnum hg
                simp only [List.length_cons, List.length_nil] at hg
                obtain ⟨g2, rfl⟩ : ∃ g2, g = g2 + 1 := ⟨g - 1, by omega⟩
                rw [show (['t', 'r', 'u', 'e'] : List Char) ++ t2
                    = 't' :: 'r' :: 'u' :: 'e' :: t2 by simp]
                simp only [parseVal, if_true]
                rw [if_neg (by decide : ¬('t' = '{')), if_neg (by decide : ¬('t' = '[')),
                  if_neg (by decide : ¬('t' = '"'))]
                rfl
            · rw [if_neg hc4] at h
              by_cases hc5 : c = 'f'
              · rw [if_pos hc5] at h
                subst hc5
                split_ifs at h with htake
                simp only [Option.some.injEq, Prod.mk.injEq] at h
                obtain ⟨hv, hrest⟩ := h
                subst hv
                refine ⟨['f', 'a', 'l', 's', 'e'], ?_, by simp, by rfl, ?_⟩
                · conv_lhs => rw [← List.take_append_drop 5 ('f' :: r)]
                  rw [htake, hrest]
                · intro t2 g hnum hg
                  simp only [List.length_cons, List.length_nil] at hg
                  obtain ⟨g2, rfl⟩ : ∃ g2, g = g2 + 1 := ⟨g - 1, by omega⟩
                  rw [show (['f', 'a', 'l', 's', 'e'] : List Char) ++ t2
                      = 'f' :: 'a' :: 'l' :: 's' :: 'e' :: t2 by simp]
                  simp only [parseVal, if_true]
                  rw [if_neg (by decide : ¬('f' = '{')), if_neg (by decide : ¬('f' = '[')),
                    if_neg (by decide : ¬('f' = '"')), if_neg (by decide : ¬('f' = 't'))]
                  rfl
              · rw [if_neg hc5] at h
                by_cases hc6 : c = 'n'
                · rw [if_pos hc6] at h
                  subst hc6
                  split_ifs at h with htake
                  simp only [Option.some.injEq, Prod.mk.injEq] at h
                  obtain ⟨hv, hrest⟩ := h
                  subst hv
                  refine ⟨['n', 'u', 'l', 'l'], ?_, by simp, by rfl, ?_⟩
                  · conv_lhs => rw [← List.take_append_drop 4 ('n' :: r)]
                    rw [htake, hrest]
                  · intro t2 g hnum hg
                    simp only [List.length_cons, List.length_nil] at hg
                    obtain ⟨g2, rfl⟩ : ∃ g2, g = g2 + 1 := ⟨g - 1, by omega⟩
                    rw [show (['n', 'u', 'l', 'l'] : List Char) ++ t2
                        = 'n' :: 'u' :: 'l' :: 'l' :: t2 by simp]
                    simp only [parseVal, if_true]
                    rw [if_neg (by decide : ¬('n' = '{')), if_neg (by decide : ¬('n' = '[')),
                      if_neg (by decide : ¬('n' = '"')), if_neg (by decide : ¬('n' = 't')),
                      if_neg (by decide : ¬('n' = 'f'))]
                    rfl
                · rw [if_neg hc6] at h
                  by_cases hc7 : (c = '-' || c.isDigit) = true
                  · rw [if_pos hc7] at h
                    split at h
                    · rename_i m e hnum2
                      simp only [Option.some.injEq, Prod.mk.injEq] at h
                      obtain ⟨hv, hrest⟩ := h
                      subst hv
                      subst hrest
                      have hcnum : isNumChar c = true := by
                        simp only [Bool.or_eq_true, decide_eq_true_eq] at hc7
                        rcases hc7 with rfl | hd
                        · decide
                        · simp [isNumChar, hd]
                      have hlex : (c :: r).takeWhile isNumChar
                          = c :: r.takeWhile isNumChar := by
                        simp [List.takeWhile, hcnum]
                      refine ⟨(c :: r).takeWhile isNumChar, ?_, ?_, ?_, ?_⟩
                      · rw [List.takeWhile_append_dropWhile]
                      · rw [hlex]
                        simp
                      · exact ⟨all_takeWhile isNumChar (c :: r), hnum2⟩
                      · intro t2 g hnumok hg
                        have hnumok2 : headNot isNumChar t2 := hnumok
                        have hallr : (r.takeWhile isNumChar).all isNumChar = true :=
                          all_takeWhile isNumChar r
                        have happ := append_of_all_headNot (r.takeWhile isNumChar) t2
                          hallr hnumok2
                        have hlen1 : 1 ≤ ((c :: r).takeWhile isNumChar).length := by
                          rw [hlex]; simp
                        obtain ⟨g2, rfl⟩ : ∃ g2, g = g2 + 1 := ⟨g - 1, by omega⟩
                        have hc7p : (c = '-' ∨ c.isDigit = true) := by
                          simpa only [Bool.or_eq_true, decide_eq_true_eq] using hc7
                        have hne : c ≠ '{' ∧ c ≠ '[' ∧ c ≠ '"' ∧ c ≠ 't' ∧ c ≠ 'f' ∧
                            c ≠ 'n' := by
                          rcases hc7p with rfl | hd
                          · exact ⟨by decide, by decide, by decide, by decide, by decide,
                              by decide⟩
                          · exact ⟨(digit_ne_syms hd).2.2.2.1, (digit_ne_syms hd).2.2.2.2.1,
                              (digit_ne_syms hd).2.2.2.2.2.1, (digit_ne_syms hd).2.2.2.2.2.2.1,
                              (digit_ne_syms hd).2.2.2.2.2.2.2.1,
                              (digit_ne_syms hd).2.2.2.2.2.2.2.2.1⟩
                        rw [hlex, show (c :: r.takeWhile isNumChar) ++ t2
                            = c :: (r.takeWhile isNumChar ++ t2) by simp]
                        simp only [parseVal, if_true]
                        rw [if_neg hne.1, if_neg hne.2.1, if_neg hne.2.2.1,
                          if_neg hne.2.2.2.1, if_neg hne.2.2.2.2.1, if_neg hne.2.2.2.2.2,
                          if_pos hc7]
                        have htw : (c :: (r.takeWhile isNumChar ++ t2)).takeWhile isNumChar
                            = c :: r.takeWhile isNumChar := by
                          simp only [List.takeWhile, hcnum]
                          rw [happ.1]
                        have hdw : (c :: (r.takeWhile isNumChar ++ t2)).dropWhile isNumChar
                            = t2 := by
                          simp only [List.dropWhile, hcnum]
                          rw [happ.2]
                        rw [htw, hdw, ← hlex, hnum2]
                    · exact absurd h (by simp)
                  · rw [if_neg hc7] at h
                    exact absurd h (by simp)

theorem parseMembers_decomp :
    ∀ (fuel : Nat) (l : List Char) (acc : List (String × Json)) (v : Json) (rest : List Char),
    parseMembers fuel l acc = some (v, rest) →
    ∃ lex, l = lex ++ rest ∧ (∃ fields, v = Json.obj fields) ∧
      (∃ mid, lex = '"' :: mid ++ ['}']) ∧
      ∀ (t2 : List Char) (g : Nat), 2 * lex.length ≤ g →
        parseMembers g (lex ++ t2) acc = some (v, t2)
  | 0, l, acc, v, rest => by
    intro h
    exact absurd h (by simp [parseMembers])
  | fuel + 1, l, acc, v, rest => by
    intro h
    rw [parseMembers.eq_def] at h
    dsimp only at h
    split at h
    · rename_i c r
      by_cases hc : c = '"'
      · rw [if_pos hc] at h
        subst hc
        split at h
        · rename_i k r1 hscan
          split at h
          · rename_i c2 r2 hcolon
            by_cases hc2 : c2 = ':'
            · rw [if_pos hc2] at h
              subst hc2
              split at h
              · rename_i v0 r3 hval
                obtain ⟨lexV, hsplitV, hneV, hshapeV, hreV⟩ :=
                  parseVal_decomp fuel (skipWs r2) v0 r3 hval
                obtain ⟨cv, csv, hconsV, hcvws, hcvt, hcvne1, hcvne2⟩ :=
                  lexShape_head hshapeV hneV
                obtain ⟨mid, hsplitS, hreS⟩ :=
                  scanString_decomp r.length r [] k r1 le_rfl hscan
                obtain ⟨w1, hd1, hw1⟩ : ∃ w, r1 = w ++ ':' :: r2 ∧
                    w.all isJsonWs = true := by
                  obtain ⟨hd, ha, _⟩ := skipWs_decomp r1
                  rw [hcolon] at hd
                  exact ⟨_, hd, ha⟩
                obtain ⟨w2, hd2, hw2⟩ : ∃ w, r2 = w ++ (lexV ++ r3) ∧
                    w.all isJsonWs = true := by
                  obtain ⟨hd, ha, _⟩ := skipWs_decomp r2
                  rw [hsplitV] at hd
                  exact ⟨_, hd, ha⟩
                split at h
                · rename_i c3 r4 hskip3
                  by_cases hc3 : c3 = ','
                  · rw [if_pos hc3] at h
                    subst hc3
                    obtain ⟨lexM, hsplitM, hfieldsM, hmidMex, hreM⟩ :=
                      parseMembers_decomp fuel (skipWs r4) (objInsert acc k v0) v rest h
                    obtain ⟨midM, hmidM⟩ := hmidMex
                    obtain ⟨w3, hd3, hw3⟩ : ∃ w, r3 = w ++ ',' :: r4 ∧
                        w.all isJsonWs = true := by
                      obtain ⟨hd, ha, _⟩ := skipWs_decomp r3
                      rw [hskip3] at hd
                      exact ⟨_, hd, ha⟩
                    obtain ⟨w4, hd4, hw4⟩ : ∃ w, r4 = w ++ (lexM ++ rest) ∧
                        w.all isJsonWs = true := by
                      obtain ⟨hd, ha, _⟩ := skipWs_decomp r4
                      rw [hsplitM] at hd
                      exact ⟨_, hd, ha⟩
                    subst hd4
                    subst hd3
                    subst hd2
                    subst hd1
                    subst hsplitS
                    refine ⟨'"' :: (mid ++ '"' :: (w1 ++ ':' :: (w2 ++ (lexV ++ (w3 ++
                        ',' :: (w4 ++ lexM)))))), by simp, hfieldsM,
                      ⟨mid ++ '"' :: (w1 ++ ':' :: (w2 ++ (lexV ++ (w3 ++ ',' ::
                        (w4 ++ '"' :: midM))))), by simp [hmidM]⟩, ?_⟩
                    intro t2 g hg
                    simp only [List.length_cons, List.length_append, List.length_nil] at hg
                    obtain ⟨g2, rfl⟩ : ∃ g2, g = g2 + 1 := ⟨g - 1, by omega⟩
                    rw [show ('"' :: (mid ++ '"' :: (w1 ++ ':' :: (w2 ++ (lexV ++ (w3 ++
                        ',' :: (w4 ++ lexM))))))) ++ t2
                        = '"' :: (mid ++ '"' :: (w1 ++ ':' :: (w2 ++ (lexV ++ (w3 ++ ',' ::
                        (w4 ++ (lexM ++ t2))))))) from by simp]
                    rw [parseMembers.eq_def]
                    dsimp only
                    rw [if_pos (rfl : ('"' : Char) = '"'), hreS]
                    dsimp only
                    rw [skipWs_ws_delim hw1 (by decide) _]
                    dsimp only
                    rw [if_pos (rfl : (':' : Char) = ':')]
                    rw [show w2 ++ (lexV ++ (w3 ++ ',' :: (w4 ++ (lexM ++ t2))))
                        = w2 ++ cv :: (csv ++ (w3 ++ ',' :: (w4 ++ (lexM ++ t2)))) from by
                          rw [hconsV]; simp]
                    rw [skipWs_ws_delim hw2 hcvws _]
                    rw [show cv :: (csv ++ (w3 ++ ',' :: (w4 ++ (lexM ++ t2))))
                        = lexV ++ (w3 ++ ',' :: (w4 ++ (lexM ++ t2))) from by
                          rw [hconsV]; simp]
                    rw [hreV (w3 ++ ',' :: (w4 ++ (lexM ++ t2))) g2
                      (numOK_ws_delim hw3 (by decide) _) (by omega)]
                    dsimp only
                    rw [skipWs_ws_delim hw3 (by decide) _]
                    dsimp only
                    rw [if_pos (rfl : (',' : Char) = ',')]
                    rw [show w4 ++ (lexM ++ t2) = w4 ++ '"' :: (midM ++ '}' :: t2) from by
                      rw [hmidM]; simp]
                    rw [skipWs_ws_delim hw4 (by decide) _]
                    rw [show ('"' : Char) :: (midM ++ '}' :: t2) = lexM ++ t2 from by
                      rw [hmidM]; simp]
                    exact hreM t2 g2 (by omega)
                  · rw [if_neg hc3] at h
                    by_cases hc3b : c3 = '}'
                    · rw [if_pos hc3b] at h
                      subst hc3b
                      simp only [Option.some.injEq, Prod.mk.injEq] at h
                      obtain ⟨hv, hrest⟩ := h
                      subst hv
                      subst hrest
                      obtain ⟨w3, hd3, hw3⟩ : ∃ w, r3 = w ++ '}' :: r4 ∧
                          w.all isJsonWs = true := by
                        obtain ⟨hd, ha, _⟩ := skipWs_decomp r3
                        rw [hskip3] at hd
                        exact ⟨_, hd, ha⟩
                      subst hd3
                      subst hd2
                      subst hd1
                      subst hsplitS
                      refine ⟨'"' :: (mid ++ '"' :: (w1 ++ ':' :: (w2 ++ (lexV ++
                          (w3 ++ ['}']))))), by simp, ⟨objInsert acc k v0, rfl⟩,
                        ⟨mid ++ '"' :: (w1 ++ ':' :: (w2 ++ (lexV ++ w3))), by simp⟩, ?_⟩
                      intro t2 g hg
                      simp only [List.length_cons, List.length_append,
                        List.length_nil] at hg
                      obtain ⟨g2, rfl⟩ : ∃ g2, g = g2 + 1 := ⟨g - 1, by omega⟩
                      rw [show ('"' :: (mid ++ '"' :: (w1 ++ ':' :: (w2 ++ (lexV ++
                          (w3 ++ ['}'])))))) ++ t2
                          = '"' :: (mid ++ '"' :: (w1 ++ ':' :: (w2 ++ (lexV ++
                          (w3 ++ '}' :: t2))))) from by simp]
                      rw [parseMembers.eq_def]
                      dsimp only
                      rw [if_pos (rfl : ('"' : Char) = '"'), hreS]
                      dsimp only
                      rw [skipWs_ws_delim hw1 (by decide) _]
                      dsimp only
                      rw [if_pos (rfl : (':' : Char) = ':')]
                      rw [show w2 ++ (lexV ++ (w3 ++ '}' :: t2))
                          = w2 ++ cv :: (csv ++ (w3 ++ '}' :: t2)) from by
                            rw [hconsV]; simp]
                      rw [skipWs_ws_delim hw2 hcvws _]
                      rw [show cv :: (csv ++ (w3 ++ '}' :: t2))
                          = lexV ++ (w3 ++ '}' :: t2) from by rw [hconsV]; simp]
                      rw [hreV (w3 ++ '}' :: t2) g2
                        (numOK_ws_delim hw3 (by decide) _) (by omega)]
                      dsimp only
                      rw [skipWs_ws_delim hw3 (by decide) _]
                      rfl
                    · rw [if_neg hc3b] at h
                      exact absurd h (by simp)
                · exact absurd h (by simp)
              · exact absurd h (by simp)
            · rw [if_neg hc2] at h
              exact absurd h (by simp)
          · exact absurd h (by simp)
        · exact absurd h (by simp)
      · rw [if_neg hc] at h
        exact absurd h (by simp)
    · exact absurd h (by simp)

theorem parseElems_decomp :
    ∀ (fuel : Nat) (l : List Char) (acc : List Json) (v : Json) (rest : List Char),
    parseElems fuel l acc = some (v, rest) →
    ∃ lex, l = lex ++ rest ∧ (∃ items, v = Json.arr items) ∧
      (∃ mid, lex = mid ++ [']']) ∧
      (∃ c cs, lex = c :: cs ∧ isJsonWs c = false ∧ c ≠ ']' ∧ c ≠ '}') ∧
      ∀ (t2 : List Char) (g : Nat), 2 * lex.length + 1 ≤ g →
        parseElems g (lex ++ t2) acc = some (v, t2)
  | 0, l, acc, v, rest => by
    intro h
    exact absurd h (by simp [parseElems])
  | fuel + 1, l, acc, v, rest => by
    intro h
    rw [parseElems.eq_def] at h
    dsimp only at h
    split at h
    · rename_i v0 r1 hval
      obtain ⟨lexV, hsplitV, hneV, hshapeV, hreV⟩ := parseVal_decomp fuel l v0 r1 hval
      obtain ⟨cv, csv, hconsV, hcvws, hcvt, hcvne1, hcvne2⟩ := lexShape_head hshapeV hneV
      split at h
      · rename_i c r2 hskip1
        by_cases hc : c = ','
        · rw [if_pos hc] at h
          subst hc
          obtain ⟨lexE, hsplitE, hitemsE, hmidEex, hheadEex, hreE⟩ :=
            parseElems_decomp fuel (skipWs r2) (acc ++ [v0]) v rest h
          obtain ⟨midE, hmidE⟩ := hmidEex
          obtain ⟨ce, cse, hconsE, hcews, hcene1, hcene2⟩ := hheadEex
          obtain ⟨w1, hd1, hw1⟩ : ∃ w, r1 = w ++ ',' :: r2 ∧ w.all isJsonWs = true := by
            obtain ⟨hd, ha, _⟩ := skipWs_decomp r1
            rw [hskip1] at hd
            exact ⟨_, hd, ha⟩
          obtain ⟨w2, hd2, hw2⟩ : ∃ w, r2 = w ++ (lexE ++ rest) ∧
              w.all isJsonWs = true := by
            obtain ⟨hd, ha, _⟩ := skipWs_decomp r2
            rw [hsplitE] at hd
            exact ⟨_, hd, ha⟩
          subst hd2
          subst hd1
          subst hsplitV
          refine ⟨lexV ++ (w1 ++ ',' :: (w2 ++ lexE)), by simp, hitemsE,
            ⟨lexV ++ (w1 ++ ',' :: (w2 ++ midE)), by simp [hmidE]⟩,
            ⟨cv, csv ++ (w1 ++ ',' :: (w2 ++ lexE)), by rw [hconsV]; simp, hcvws, hcvne1,
              hcvne2⟩, ?_⟩
          intro t2 g hg
          simp only [List.length_cons, List.length_append, List.length_nil] at hg
          have hlv1 : 1 ≤ lexV.length := by rw [hconsV]; simp
          obtain ⟨g2, rfl⟩ : ∃ g2, g = g2 + 1 := ⟨g - 1, by omega⟩
          rw [show (lexV ++ (w1 ++ ',' :: (w2 ++ lexE))) ++ t2
              = lexV ++ (w1 ++ ',' :: (w2 ++ (lexE ++ t2))) from by simp]
          rw [parseElems.eq_def]
          dsimp only
          rw [hreV (w1 ++ ',' :: (w2 ++ (lexE ++ t2))) g2
            (numOK_ws_delim hw1 (by decide) _) (by omega)]
          dsimp only
          rw [skipWs_ws_delim hw1 (by decide) _]
          dsimp only
          rw [if_pos (rfl : (',' : Char) = ',')]
          rw [show w2 ++ (lexE ++ t2) = w2 ++ ce :: (cse ++ t2) from by rw [hconsE]; simp]
          rw [skipWs_ws_delim hw2 hcews _]
          rw [show ce :: (cse ++ t2) = lexE ++ t2 from by rw [hconsE]; simp]
          exact hreE t2 g2 (by omega)
        · rw [if_neg hc] at h
          by_cases hcb : c = ']'
          · rw [if_pos hcb] at h
            subst hcb
            simp only [Option.some.injEq, Prod.mk.injEq] at h
            obtain ⟨hv, hrest⟩ := h
            subst hv
            subst hrest
            obtain ⟨w1, hd1, hw1⟩ : ∃ w, r1 = w ++ ']' :: r2 ∧ w.all isJsonWs = true := by
              obtain ⟨hd, ha, _⟩ := skipWs_decomp r1
              rw [hskip1] at hd
              exact ⟨_, hd, ha⟩
            subst hd1
            subst hsplitV
            refine ⟨lexV ++ (w1 ++ [']']), by simp, ⟨acc ++ [v0], rfl⟩,
              ⟨lexV ++ w1, by simp⟩,
              ⟨cv, csv ++ (w1 ++ [']']), by rw [hconsV]; simp, hcvws, hcvne1, hcvne2⟩, ?_⟩
            intro t2 g hg
            simp only [List.length_cons, List.length_append, List.length_nil] at hg
            obtain ⟨g2, rfl⟩ : ∃ g2, g = g2 + 1 := ⟨g - 1, by omega⟩
            rw [show (lexV ++ (w1 ++ [']'])) ++ t2 = lexV ++ (w1 ++ ']' :: t2) from by simp]
            rw [parseElems.eq_def]
            dsimp only
            rw [hreV (w1 ++ ']' :: t2) g2 (numOK_ws_delim hw1 (by decide) _) (by omega)]
            dsimp only
            rw [skipWs_ws_delim hw1 (by decide) _]
            rfl
          · rw [if_neg hcb] at h
            exact absurd h (by simp)
      · exact absurd h (by simp)
    · exact absurd h (by simp)
end

/-- Every JSON whitespace character is also `String.prototype.trim`
whitespace. -/
theorem isJsTrimWs_of_jsonWs {c : Char} (h : isJsonWs c = true) : isJsTrimWs c = true := by
  simp only [isJsonWs, Bool.or_eq_true, decide_eq_true_eq] at h
  rcases h with ((rfl | rfl) | rfl) | rfl <;> decide

theorem all_trimWs_of_jsonWs {w : List Char} (h : w.all isJsonWs = true) :
    w.all isJsTrimWs = true := by
  rw [List.all_eq_true] at h ⊢
  intro c hc
  exact isJsTrimWs_of_jsonWs (h c hc)

/-- The empty suffix satisfies the number-extension side condition for any
value. -/
theorem numOK_nil (v : Json) : numOK v [] := by
  cases v
  case num m e => exact headNot_nil isNumChar
  all_goals exact trivial

theorem skipWs_cons_not {c : Char} (cs : List Char) (h : isJsonWs c = false) :
    skipWs (c :: cs) = c :: cs := by
  simp [skipWs, List.dropWhile_cons, h]

/-- `trim` applied to whitespace margins around a lexeme whose first and last
characters are not trim whitespace returns exactly the lexeme. -/
theorem jsTrimL_decomp {w0 lex rest : List Char} (hw0 : w0.all isJsonWs = true)
    (hrest : rest.all isJsonWs = true)
    (hhead : ∃ c cs, lex = c :: cs ∧ isJsTrimWs c = false)
    (hlast : ∃ mid d, lex = mid ++ [d] ∧ isJsTrimWs d = false) :
    jsTrimL (w0 ++ (lex ++ rest)) = lex := by
  obtain ⟨c, cs, hcons, hc⟩ := hhead
  obtain ⟨mid, d, hmd, hd⟩ := hlast
  have hnot1 : headNot isJsTrimWs (lex ++ rest) := by
    rw [hcons, List.cons_append]
    exact headNot_cons _ hc
  have h1 : (w0 ++ (lex ++ rest)).dropWhile isJsTrimWs = lex ++ rest :=
    (append_of_all_headNot w0 (lex ++ rest) (all_trimWs_of_jsonWs hw0) hnot1).2
  have hrevcons : lex.reverse = d :: mid.reverse := by
    rw [hmd]
    simp
  have hnot2 : headNot isJsTrimWs lex.reverse := by
    rw [hrevcons]
    exact headNot_cons _ hd
  have h2 : (rest.reverse ++ lex.reverse).dropWhile isJsTrimWs = lex.reverse :=
    (append_of_all_headNot rest.reverse lex.reverse
      (by rw [List.all_reverse]; exact all_trimWs_of_jsonWs hrest) hnot2).2
  unfold jsTrimL
  rw [h1, List.reverse_append, h2, List.reverse_reverse]

/-- The bridge from parser success to the validator: if `JSON.parse` accepts
a text, `isValidJsonSyntax` returns `true` on it (the trimmed text is exactly
the value's lexeme, the first/last-character guard passes, and re-parsing the
trimmed text succeeds). -/
theorem jsonParse_some_valid {T : String} {v : Json} (h : jsonParse T = some v) :
    isValidJsonSyntax T = true := by
  unfold jsonParse at h
  split at h
  case h_2 => exact absurd h (by simp)
  rename_i v0 rest heq
  by_cases hskrest : skipWs rest = []
  case neg =>
    rw [if_neg hskrest] at h
    exact absurd h (by simp)
  rw [if_pos hskrest] at h
  simp only [Option.some.injEq] at h
  subst h
  obtain ⟨lex, hsplit, hne, hshape, hrep⟩ := parseVal_decomp _ (skipWs T.data) v0 rest heq
  obtain ⟨c, cs, hcons, hcws, hctrim, hcne1, hcne2⟩ := lexShape_head hshape hne
  obtain ⟨mid, d, hmd, hdtrim⟩ := lexShape_last hshape hne
  subst hcons
  obtain ⟨w0, hw0d, hw0⟩ : ∃ w, T.data = w ++ ((c :: cs) ++ rest) ∧
      w.all isJsonWs = true := by
    obtain ⟨hd1, ha, _⟩ := skipWs_decomp T.data
    rw [hsplit] at hd1
    exact ⟨_, hd1, ha⟩
  have hrestall : rest.all isJsonWs = true := dropWhile_nil_all hskrest
  have htrim : jsTrimL T.data = c :: cs := by
    rw [hw0d]
    exact jsTrimL_decomp hw0 hrestall ⟨c, cs, rfl, hctrim⟩ ⟨mid, d, hmd, hdtrim⟩
  have hjs : jsTrim T = String.mk (c :: cs) := by
    rw [jsTrim, htrim]
  have hTne : ¬(T = "") := by
    intro hT
    have hdata : T.data = [] := by rw [hT]
    rw [hw0d] at hdata
    simp at hdata
  have hparse2 : jsonParse (String.mk (c :: cs)) = some v0 := by
    unfold jsonParse
    have hskiplex : skipWs (c :: cs) = c :: cs := skipWs_cons_not cs hcws
    have hlen : (String.mk (c :: cs)).length = (c :: cs).length := rfl
    have hrun := hrep [] (2 * (String.mk (c :: cs)).length + 2) (numOK_nil v0)
      (by rw [hlen]; omega)
    rw [List.append_nil] at hrun
    dsimp only
    rw [hskiplex, hrun]
    rfl
  unfold isValidJsonSyntax
  rw [if_neg hTne, hjs]
  dsimp only
  have hguard : ((c = '{' && List.getLastD (c :: cs) c = '}') ||
      (c = '[' && List.getLastD (c :: cs) c = ']') ||
      (c = '"' && List.getLastD (c :: cs) c = '"') ||
      String.mk (c :: cs) = "true" || String.mk (c :: cs) = "false" ||
      String.mk (c :: cs) = "null" ||
      jsNumberAccepts (String.mk (c :: cs))) = true := by
    cases v0 with
    | null =>
      rw [show lexShape Json.null (c :: cs) = (c :: cs = ['n', 'u', 'l', 'l']) from rfl]
        at hshape
      simp only [List.cons.injEq] at hshape
      obtain ⟨rfl, rfl⟩ := hshape
      decide
    | bool b =>
      cases b with
      | true =>
        rw [show lexShape (Json.bool true) (c :: cs) = (c :: cs = ['t', 'r', 'u', 'e'])
          from rfl] at hshape
        simp only [List.cons.injEq] at hshape
        obtain ⟨rfl, rfl⟩ := hshape
        decide
      | false =>
        rw [show lexShape (Json.bool false) (c :: cs) = (c :: cs = ['f', 'a', 'l', 's', 'e'])
          from rfl] at hshape
        simp only [List.cons.injEq] at hshape
        obtain ⟨rfl, rfl⟩ := hshape
        decide
    | str s =>
      obtain ⟨midS, hmidS⟩ := hshape
      rw [List.cons_append] at hmidS
      simp only [List.cons.injEq] at hmidS
      obtain ⟨rfl, rfl⟩ := hmidS
      have hlastc : List.getLastD ('"' :: (midS ++ ['"'])) '"' = '"' := by
        rw [show ('"' : Char) :: (midS ++ ['"']) = ('"' :: midS) ++ ['"'] from rfl]
        exact List.getLastD_concat _ _ _
      rw [hlastc]
      simp
    | arr items =>
      obtain ⟨midS, hmidS⟩ := hshape
      rw [List.cons_append] at hmidS
      simp only [List.cons.injEq] at hmidS
      obtain ⟨rfl, rfl⟩ := hmidS
      have hlastc : List.getLastD ('[' :: (midS ++ [']'])) '[' = ']' := by
        rw [show ('[' : Char) :: (midS ++ [']']) = ('[' :: midS) ++ [']'] from rfl]
        exact List.getLastD_concat _ _ _
      rw [hlastc]
      simp
    | obj fields =>
      obtain ⟨midS, hmidS⟩ := hshape
      rw [List.cons_append] at hmidS
      simp only [List.cons.injEq] at hmidS
      obtain ⟨rfl, rfl⟩ := hmidS
      have hlastc : List.getLastD ('{' :: (midS ++ ['}'])) '{' = '}' := by
        rw [show ('{' : Char) :: (midS ++ ['}']) = ('{' :: midS) ++ ['}'] from rfl]
        exact List.getLastD_concat _ _ _
      rw [hlastc]
      simp
    | num m e =>
      have hacc := (parseNumLexeme_shape hshape.2).2.2
      rw [hacc]
      simp
  rw [if_pos hguard, hparse2]
  rfl

/-- C1: `parseJsonString` and the reference decoder agree.  For any options:
if the reference decoder (`JSON.parse` as modelled by `jsonParse`) accepts the
text, the result's `data` is exactly the decoded value and `errors` is empty;
if the decoder rejects the text (including the empty and whitespace-only
texts), `data` is absent and `errors` is non-empty. -/
theorem parse_matches_reference (T : String) (opts : JsonParseOptions) :
    (∀ v, jsonParse T = some v →
      (parseJsonString T opts).data = some v ∧ (parseJsonString T opts).errors = []) ∧
    (jsonParse T = none →
      (parseJsonString T opts).data = none ∧ (parseJsonString T opts).errors ≠ []) := by
  constructor
  · intro v hv
    have hvalid := jsonParse_some_valid hv
    unfold parseJsonString
    dsimp only
    rw [hvalid, if_neg (by simp), hv]
    dsimp only
    have hcount : decide ((analyzeJsonStructure v opts.maxDepth opts.maxNodes).nodeCount >
        opts.maxNodes) = false := by
      simp only [decide_eq_false_iff_not, gt_iff_lt, not_lt, analyze_nodeCount]
      omega
    rw [hcount]
    simp
  · intro hnone
    unfold parseJsonString
    dsimp only
    by_cases hval : isValidJsonSyntax T = false
    · rw [if_pos hval]
      exact ⟨rfl, by simp⟩
    · rw [if_neg hval, hnone]
      exact ⟨rfl, by simp⟩

theorem parse_matches_reference_witness :
    (parseJsonString "[1, 2]" ⟨100, 10000, false⟩).data
        = some (Json.arr [Json.num 1 0, Json.num 2 0]) ∧
    (parseJsonString "[1, 2]" ⟨100, 10000, false⟩).errors = [] ∧
    (parseJsonString "nope" ⟨100, 10000, false⟩).data = none ∧
    (parseJsonString "nope" ⟨100, 10000, false⟩).errors ≠ [] := by
  obtain ⟨h1, h2⟩ := (parse_matches_reference "[1, 2]" ⟨100, 10000, false⟩).1
    (Json.arr [Json.num 1 0, Json.num 2 0]) (by decide)
  obtain ⟨h3, h4⟩ := (parse_matches_reference "nope" ⟨100, 10000, false⟩).2 (by decide)
  exact ⟨h1, h2, h3, h4⟩

/-- Decimal digits of `n`, most significant first: the rendering of an array
index inside a template literal. -/
def natDigs : Nat → Nat → List Char
  | 0, _ => []
  | fuel + 1, n =>
    if n < 10 then [Char.ofNat (48 + n)]
    else natDigs fuel (n / 10) ++ [Char.ofNat (48 + n % 10)]

/-- `String(n)` for a natural number. -/
def natToStr (n : Nat) : String := String.mk (natDigs (n + 1) n)

/-- `String(i)` for an integer. -/
def intStr (i : Int) : String :=
  if i < 0 then String.mk ('-' :: natDigs (i.natAbs + 1) i.natAbs)
  else String.mk (natDigs (i.natAbs + 1) i.natAbs)

/-- Host numbers do not remember trailing zeros of a decimal literal: absorb
the mantissa's trailing zeros into the exponent before printing. -/
def stripZeros : Nat → Int → Int → Int × Int
  | 0, m, e => (m, e)
  | fuel + 1, m, e =>
    if e < 0 && m % 10 == 0 && m != 0 then stripZeros fuel (m / 10) (e + 1) else (m, e)

/-- `String(x)` for the number `m · 10^e`, in the plain-decimal regime: the
digits of the normalised mantissa with a decimal point where the exponent is
negative.  The host's exponent-notation regimes (`|x| ≥ 1e21`,
`|x| < 1e-6`) are outside the model. -/
def numStr (m e : Int) : String :=
  let p := stripZeros e.natAbs m e
  let m2 := p.1
  let e2 := p.2
  if m2 = 0 then "0"
  else if 0 ≤ e2 then intStr (m2 * (10 : Int) ^ e2.natAbs)
  else
    let digs := natDigs (m2.natAbs + 1) m2.natAbs
    let k := e2.natAbs
    let digs2 := if digs.length ≤ k then List.replicate (k + 1 - digs.length) '0' ++ digs
      else digs
    let intPart := digs2.take (digs2.length - k)
    let fracPart := digs2.drop (digs2.length - k)
    String.mk ((if m2 < 0 then ['-'] else []) ++ intPart ++ '.' :: fracPart)

mutual

/-- `String(x)`: the host's string conversion.  Arrays join their elements
with commas (`null` elements print as the empty string), plain objects print
as `[object Object]`. -/
def jsStringOf : Json → String
  | Json.null => "null"
  | Json.bool true => "true"
  | Json.bool false => "false"
  | Json.num m e => numStr m e
  | Json.str s => s
  | Json.obj _ => "[object Object]"
  | Json.arr items => jsJoinElems items

def jsJoinElems : List Json → String
  | [] => ""
  | v :: vs =>
    (match v with
      | Json.null => ""
      | w => jsStringOf w) ++
    (match vs with
      | [] => ""
      | _ => "," ++ jsJoinElems vs)

end

/-- `s.toLowerCase()` (ASCII model). -/
def strLower (s : String) : String := String.mk (s.data.map Char.toLower)

/-- `s.includes(sub)`: substring containment; the empty string is contained
in everything. -/
def containsSub (s sub : String) : Bool :=
  s.data.tails.any (fun t => sub.data.isPrefixOf t)

/-- The delimiter class `/[.\[\]]/` of the path-splitting regular
expression. -/
def isDelim (c : Char) : Bool := c = '.' || c = '[' || c = ']'

/-- `String.prototype.split` on the single-character delimiter class:
fragments between delimiters, empty fragments included. -/
def splitDelimsAux : List Char → List Char → List String
  | [], acc => [String.mk acc.reverse]
  | c :: r, acc =>
    if isDelim c then String.mk acc.reverse :: splitDelimsAux r []
    else splitDelimsAux r (c :: acc)

def splitDelims (s : String) : List String := splitDelimsAux s.data []

/-- `path.split(/[.\[\]]/).filter(Boolean)`: split and drop the empty
fragments. -/
def splitSegs (s : String) : List String :=
  (splitDelims s).filter (fun x => x ≠ "")

/-- One logical path segment: an object key or an array index. -/
inductive Seg where
  | key (k : String) : Seg
  | idx (n : Nat) : Seg
deriving Repr, DecidableEq

/-- The string a segment should split back into. -/
def segStr : Seg → String
  | .key k => k
  | .idx n => natToStr n

/-- One step of the renderer: `` currentPath ? `${currentPath}.${key}` : key ``
for a key, `` currentPath ? `${currentPath}[${i}]` : `[${i}]` `` for an
index. -/
def segAppend (cur : String) : Seg → String
  | .key k => if cur = "" then k else cur ++ "." ++ k
  | .idx n => if cur = "" then "[" ++ natToStr n ++ "]" else cur ++ "[" ++ natToStr n ++ "]"

/-- The canonical renderer: fold the segment steps from the root. -/
def renderPath (segs : List Seg) : String := segs.foldl segAppend ""

/-- The round-trip hypothesis: every key segment is non-empty and free of the
delimiter characters. -/
def goodSegs (segs : List Seg) : Bool :=
  segs.all fun s =>
    match s with
    | .key k => !decide (k = "") && k.data.all (fun c => !isDelim c)
    | .idx _ => true

mutual

/-- `extractJsonPaths`'s traversal: push the path of every member and element
in document order, recursing with the extended path. -/
def extractPathsVal : Json → String → List String
  | Json.arr items, cur => extractPathsElems items cur 0
  | Json.obj fields, cur => extractPathsFields fields cur
  | _, _ => []

def extractPathsElems : List Json → String → Nat → List String
  | [], _, _ => []
  | v :: vs, cur, i =>
    let p := if cur = "" then "[" ++ natToStr i ++ "]" else cur ++ "[" ++ natToStr i ++ "]"
    p :: (extractPathsVal v p ++ extractPathsElems vs cur (i + 1))

def extractPathsFields : List (String × Json) → String → List String
  | [], _ => []
  | kv :: rest, cur =>
    let p := if cur = "" then kv.1 else cur ++ "." ++ kv.1
    p :: (extractPathsVal kv.2 p ++ extractPathsFields rest cur)

end

/-- `extractJsonPaths(data)` from `json-parser.ts`. -/
def extractJsonPaths (data : Json) : List String := extractPathsVal data ""

/-- One search hit: `{ path, value, type }`. -/
structure SearchHit where
  path : String
  value : Json
  type : String
deriving Repr, DecidableEq

def isScalarJ : Json → Bool
  | Json.arr _ => false
  | Json.obj _ => false
  | _ => true

mutual

/-- The traversal of `searchInJson` from `json-parser.ts` (the hit list is
threaded through like the closed-over `results` array; `term` is the
case-adjusted query).  Objects check each key and recurse into the member;
arrays recurse; any other value checks its string form against the term. -/
def searchJVal (csFlag : Bool) (term : String) : Json → String → List SearchHit →
    List SearchHit
  | Json.arr items, path, res => searchJElems csFlag term items path 0 res
  | Json.obj fields, path, res => searchJFields csFlag term fields path res
  | v, path, res =>
    let sv := jsStringOf v
    let sv2 := if csFlag then sv else strLower sv
    if containsSub sv2 term then res ++ [⟨path, v, getJsonType v⟩] else res

def searchJElems (csFlag : Bool) (term : String) : List Json → String → Nat →
    List SearchHit → List SearchHit
  | [], _, _, res => res
  | v :: vs, path, i, res =>
    let p := if path = "" then "[" ++ natToStr i ++ "]" else path ++ "[" ++ natToStr i ++ "]"
    searchJElems csFlag term vs path (i + 1) (searchJVal csFlag term v p res)

def searchJFields (csFlag : Bool) (term : String) : List (String × Json) → String →
    List SearchHit → List SearchHit
  | [], _, res => res
  | kv :: rest, path, res =>
    let p := if path = "" then kv.1 else path ++ "." ++ kv.1
    let keyM := if csFlag then kv.1 else strLower kv.1
    let res1 := if containsSub keyM term then res ++ [⟨p, kv.2, getJsonType kv.2⟩] else res
    searchJFields csFlag term rest path (searchJVal csFlag term kv.2 p res1)

end

/-- `searchInJson(data, query, caseSensitive)` from `json-parser.ts`. -/
def searchInJson (data : Json) (query : String) (caseSensitive : Bool := false) :
    List SearchHit :=
  searchJVal caseSensitive (if caseSensitive then query else strLower query) data "" []

mutual

/-- The specification-shaped search: per node, the value hit (for scalars)
appears at its own path; per object member, the key hit (carrying the
member's value) precedes the member's own hits; hits are concatenated in
document pre-order, the two checks independent, no deduplication. -/
def searchSpecVal (csFlag : Bool) (term : String) : Json → String → List SearchHit
  | Json.arr items, path => searchSpecElems csFlag term items path 0
  | Json.obj fields, path => searchSpecFields csFlag term fields path
  | v, path =>
    if containsSub (if csFlag then jsStringOf v else strLower (jsStringOf v)) term then
      [⟨path, v, getJsonType v⟩]
    else []

def searchSpecElems (csFlag : Bool) (term : String) : List Json → String → Nat →
    List SearchHit
  | [], _, _ => []
  | v :: vs, path, i =>
    let p := if path = "" then "[" ++ natToStr i ++ "]" else path ++ "[" ++ natToStr i ++ "]"
    searchSpecVal csFlag term v p ++ searchSpecElems csFlag term vs path (i + 1)

def searchSpecFields (csFlag : Bool) (term : String) : List (String × Json) → String →
    List SearchHit
  | [], _ => []
  | kv :: rest, path =>
    let p := if path = "" then kv.1 else path ++ "." ++ kv.1
    (if containsSub (if csFlag then kv.1 else strLower kv.1) term then
      [⟨p, kv.2, getJsonType kv.2⟩] else []) ++
    (searchSpecVal csFlag term kv.2 p ++ searchSpecFields csFlag term rest path)

end

mutual

/-- The tree view's own `searchInJson` recursion: value check first (the
string form of ANY node, composites included), then the path check, then the
recursion into members or elements. -/
def searchTVVal (term : String) : Json → String → List SearchHit → List SearchHit
  | v, path, res =>
    let res1 := if containsSub (strLower (jsStringOf v)) term then
      res ++ [⟨path, v, getJsonType v⟩] else res
    let res2 := if containsSub (strLower path) term then
      res1 ++ [⟨path, v, getJsonType v⟩] else res1
    match v with
    | Json.obj fields => searchTVFields term fields path res2
    | Json.arr items => searchTVElems term items path 0 res2
    | _ => res2

def searchTVElems (term : String) : List Json → String → Nat → List SearchHit →
    List SearchHit
  | [], _, _, res => res
  | v :: vs, path, i, res =>
    searchTVElems term vs path (i + 1)
      (searchTVVal term v (path ++ "[" ++ natToStr i ++ "]") res)

def searchTVFields (term : String) : List (String × Json) → String → List SearchHit →
    List SearchHit
  | [], _, res => res
  | kv :: rest, path, res =>
    searchTVFields term rest path
      (searchTVVal term kv.2 (if path = "" then kv.1 else path ++ "." ++ kv.1) res)

end

/-- The tree view's `searchInJson` entry point: an empty or whitespace-only
query short-circuits to no hits. -/
def searchInJsonTV (searchTerm : String) (data : Json) : List SearchHit :=
  if jsTrim searchTerm = "" then [] else searchTVVal (strLower searchTerm) data "" []

/-- One visible row of the tree: a value node at a path, or the
"limit reached" marker. -/
inductive TreeEntry where
  | node (path : String) : TreeEntry
  | marker : TreeEntry
deriving Repr, DecidableEq

def isNodeEntry : TreeEntry → Bool
  | .node _ => true
  | .marker => false

/-- The number of value rows in an emitted sequence. -/
def numNodes (l : List TreeEntry) : Nat := (l.filter isNodeEntry).length

mutual

/-- `JsonTreeNode` under React's two-phase rendering: entering a node when
the shared counter has reached `maxN` emits the marker without counting;
otherwise the node counts itself, and (when expanded) enlists either all its
children or none — the loop bound reads the counter frozen during element
creation — while every enlisted child re-checks the live counter when it
renders, unexpanded.  Returns the emitted rows and the updated counter. -/
def renderNode (maxN : Nat) : Json → String → Bool → Nat → List TreeEntry × Nat
  | v, path, isExp, cnt =>
    if maxN ≤ cnt then ([TreeEntry.marker], cnt)
    else
      match v with
      | Json.arr items =>
        if isExp && decide (cnt + 1 < maxN) then
          let r := renderElems maxN path items 0 (cnt + 1)
          (TreeEntry.node path :: r.1, r.2)
        else ([TreeEntry.node path], cnt + 1)
      | Json.obj fields =>
        if isExp && decide (cnt + 1 < maxN) then
          let r := renderFields maxN path fields (cnt + 1)
          (TreeEntry.node path :: r.1, r.2)
        else ([TreeEntry.node path], cnt + 1)
      | _ => ([TreeEntry.node path], cnt + 1)

def renderElems (maxN : Nat) (path : String) : List Json → Nat → Nat →
    List TreeEntry × Nat
  | [], _, cnt => ([], cnt)
  | v :: vs, i, cnt =>
    let r1 := renderNode maxN v (path ++ "[" ++ natToStr i ++ "]") false cnt
    let r2 := renderElems maxN path vs (i + 1) r1.2
    (r1.1 ++ r2.1, r2.2)

def renderFields (maxN : Nat) (path : String) : List (String × Json) → Nat →
    List TreeEntry × Nat
  | [], cnt => ([], cnt)
  | kv :: rest, cnt =>
    let r1 := renderNode maxN kv.2 (if path = "" then kv.1 else path ++ "." ++ kv.1)
      false cnt
    let r2 := renderFields maxN path rest r1.2
    (r1.1 ++ r2.1, r2.2)

end

/-- The paths of a node's direct children, in document order. -/
def arrPaths (path : String) : List Json → Nat → List String
  | [], _ => []
  | _ :: vs, i => (path ++ "[" ++ natToStr i ++ "]") :: arrPaths path vs (i + 1)

def childPaths (v : Json) (path : String) : List String :=
  match v with
  | Json.arr items => arrPaths path items 0
  | Json.obj fields => fields.map (fun kv => if path = "" then kv.1 else path ++ "." ++ kv.1)
  | _ => []

/-- The visible rows when the budget does not bite: the node itself and (when
expanded) one row per child, pre-order, no marker. -/
def visList (v : Json) (path : String) (isExp : Bool) : List TreeEntry :=
  TreeEntry.node path :: (if isExp then (childPaths v path).map TreeEntry.node else [])

/-- `navigateSearchResults(direction)`: a no-op on an empty hit list;
otherwise advance with wrap-around to 0 past the end, or retreat with
wrap-around to the last index before 0. -/
def navigateSearchResults (len : Nat) (next : Bool) (cur : Int) : Int :=
  if len = 0 then cur
  else if next then (if cur < (len : Int) - 1 then cur + 1 else 0)
  else (if cur > 0 then cur - 1 else (len : Int) - 1)

/-- `results.length > 0 ? 0 : -1`: the cursor set when a search completes. -/
def initialCursor (len : Nat) : Int := if 0 < len then 0 else -1

theorem digitChar_isDigit {k : Nat} (h : k < 10) : (Char.ofNat (48 + k)).isDigit = true := by
  interval_cases k <;> decide

/-- Index digits are decimal digits and there is at least one. -/
theorem natDigs_all_digit : ∀ (fuel n : Nat), n < fuel →
    (natDigs fuel n).all Char.isDigit = true ∧ natDigs fuel n ≠ []
  | 0, n, h => absurd h (by omega)
  | fuel + 1, n, h => by
    unfold natDigs
    by_cases h10 : n < 10
    · rw [if_pos h10]
      exact ⟨by simp [digitChar_isDigit h10], by simp⟩
    · rw [if_neg h10]
      have hdiv : n / 10 < fuel := by
        have h1 : n / 10 < n := Nat.div_lt_self (by omega) (by omega)
        omega
      obtain ⟨ih1, ih2⟩ := natDigs_all_digit fuel (n / 10) hdiv
      constructor
      · rw [List.all_append]
        simp [ih1, digitChar_isDigit (Nat.mod_lt n (by omega))]
      · simp

theorem isDelim_of_digit {c : Char} (h : c.isDigit = true) : isDelim c = false := by
  rw [Bool.eq_false_iff]
  intro hd
  simp only [isDelim, Bool.or_eq_true, decide_eq_true_eq] at hd
  rcases hd with (rfl | rfl) | rfl <;> exact absurd h (by decide)

theorem all_not_delim_of_digit {l : List Char} (h : l.all Char.isDigit = true) :
    l.all (fun c => !isDelim c) = true := by
  rw [List.all_eq_true] at h ⊢
  intro c hc
  simp [isDelim_of_digit (h c hc)]

theorem str_ne_empty {p : String} (h : p.data ≠ []) : p ≠ "" := by
  intro hx
  rw [hx] at h
  exact h rfl

/-- The splitter passes over a delimiter-free block, accumulating it. -/
theorem splitDelimsAux_nodelim : ∀ (l r acc : List Char),
    l.all (fun c => !isDelim c) = true →
    splitDelimsAux (l ++ r) acc = splitDelimsAux r (l.reverse ++ acc)
  | [], r, acc, _ => by simp
  | c :: l, r, acc, h => by
    rw [List.all_cons, Bool.and_eq_true] at h
    have hc : isDelim c = false := by simpa using h.1
    rw [List.cons_append]
    simp only [splitDelimsAux]
    rw [if_neg (by simp [hc])]
    rw [splitDelimsAux_nodelim l r (c :: acc) h.2]
    simp

/-- The splitter flushes the accumulated fragment at a delimiter. -/
theorem splitDelimsAux_delim {d : Char} (hd : isDelim d = true) (r acc : List Char) :
    splitDelimsAux (d :: r) acc = String.mk acc.reverse :: splitDelimsAux r [] := by
  simp only [splitDelimsAux]
  rw [if_pos hd]

/-- The non-head fragment a segment contributes to the rendered path. -/
def segTailFrag : Seg → List Char
  | .key k => '.' :: k.data
  | .idx n => '[' :: ((natToStr n).data ++ [']'])

def renderTailL : List Seg → List Char
  | [] => []
  | s :: rest => segTailFrag s ++ renderTailL rest

/-- From a non-empty current path, the renderer appends exactly the tail
fragments. -/
theorem foldl_segAppend_ne : ∀ (segs : List Seg) (p : String), p ≠ "" →
    (List.foldl segAppend p segs).data = p.data ++ renderTailL segs
  | [], p, _ => by simp [renderTailL]
  | Seg.key k :: rest, p, h => by
    rw [List.foldl_cons]
    have hp : segAppend p (Seg.key k) = p ++ "." ++ k := by
      simp only [segAppend]
      rw [if_neg h]
    rw [hp]
    have hd : (p ++ "." ++ k).data = p.data ++ '.' :: k.data := by
      simp [String.data_append]
    have hne2 : p ++ "." ++ k ≠ "" := str_ne_empty (by
      rw [hd]
      simp)
    rw [foldl_segAppend_ne rest _ hne2, hd]
    simp [renderTailL, segTailFrag]
  | Seg.idx n :: rest, p, h => by
    rw [List.foldl_cons]
    have hp : segAppend p (Seg.idx n) = p ++ "[" ++ natToStr n ++ "]" := by
      simp only [segAppend]
      rw [if_neg h]
    rw [hp]
    have hd : (p ++ "[" ++ natToStr n ++ "]").data
        = p.data ++ '[' :: ((natToStr n).data ++ [']']) := by
      simp [String.data_append]
    have hne2 : p ++ "[" ++ natToStr n ++ "]" ≠ "" := str_ne_empty (by
      rw [hd]
      simp)
    rw [foldl_segAppend_ne rest _ hne2, hd]
    simp [renderTailL, segTailFrag]

theorem filter_cons_split (p : String → Bool) (a : String) (l : List String) :
    List.filter p (a :: l) = List.filter p [a] ++ List.filter p l := by
  rw [List.filter_cons]
  by_cases h : p a = true
  · rw [if_pos h]
    simp [List.filter_cons, h]
  · rw [if_neg h]
    simp [List.filter_cons, h]

theorem filter_ne_singleton {s : String} (h : s ≠ "") :
    List.filter (fun x => x ≠ "") [s] = [s] := by
  simp [List.filter_cons, h]

/-- Splitting and filtering the tail fragments recovers the segment strings,
after whatever the pending accumulated fragment contributes. -/
theorem splitSegs_tail : ∀ (segs : List Seg) (acc : List Char), goodSegs segs = true →
    (splitDelimsAux (renderTailL segs) acc).filter (fun x => x ≠ "") =
      (List.filter (fun x => x ≠ "") [String.mk acc.reverse]) ++ segs.map segStr
  | [], acc, _ => by
    simp [renderTailL, splitDelimsAux]
  | Seg.key k :: rest, acc, hg => by
    rw [goodSegs, List.all_cons, Bool.and_eq_true] at hg
    obtain ⟨hk, hrest⟩ := hg
    rw [Bool.and_eq_true] at hk
    have hkne : k ≠ "" := by
      have h2 := hk.1
      simp only [Bool.not_eq_eq_eq_not, Bool.not_true, decide_eq_false_iff_not] at h2
      exact h2
    have hkfree : k.data.all (fun c => !isDelim c) = true := hk.2
    rw [show renderTailL (Seg.key k :: rest)
        = '.' :: (k.data ++ renderTailL rest) from by simp [renderTailL, segTailFrag]]
    rw [splitDelimsAux_delim (by decide)]
    rw [splitDelimsAux_nodelim k.data (renderTailL rest) [] hkfree]
    rw [filter_cons_split]
    rw [splitSegs_tail rest (k.data.reverse ++ []) hrest]
    have hmk : String.mk (k.data.reverse ++ []).reverse = k := by
      cases k
      simp
    rw [hmk, filter_ne_singleton hkne]
    simp [segStr]
  | Seg.idx n :: rest, acc, hg => by
    rw [goodSegs, List.all_cons, Bool.and_eq_true] at hg
    obtain ⟨-, hrest⟩ := hg
    obtain ⟨hdig, hne⟩ := natDigs_all_digit (n + 1) n (by omega)
    rw [show renderTailL (Seg.idx n :: rest)
        = '[' :: ((natToStr n).data ++ (']' :: renderTailL rest)) from by
          simp [renderTailL, segTailFrag]]
    rw [splitDelimsAux_delim (by decide)]
    rw [splitDelimsAux_nodelim (natToStr n).data (']' :: renderTailL rest) []
      (all_not_delim_of_digit hdig)]
    rw [splitDelimsAux_delim (by decide)]
    rw [filter_cons_split]
    have hmk : String.mk ((natToStr n).data.reverse ++ []).reverse = natToStr n := by
      simp
    rw [hmk]
    rw [filter_cons_split _ (natToStr n)]
    rw [splitSegs_tail rest [] hrest]
    have hne2 : natToStr n ≠ "" := str_ne_empty (by simpa [natToStr] using hne)
    rw [@filter_ne_singleton (natToStr n) hne2]
    simp [segStr]

/-- C8: path round-trip, amended.  For a path built by the renderer from
segments whose key segments are non-empty and contain none of the delimiter
characters `.`, `[`, `]`, splitting the rendered string on those delimiters
and dropping empty fragments recovers the ordered segment strings.  (The
spec's provision must also exclude empty keys: see the counterexample, where
an empty key — which contains none of the delimiters — is dropped by the
`filter(Boolean)` step.) -/
theorem path_split_roundtrip (segs : List Seg) (h : goodSegs segs = true) :
    splitSegs (renderPath segs) = segs.map segStr := by
  cases segs with
  | nil => decide
  | cons s rest =>
    rw [goodSegs, List.all_cons, Bool.and_eq_true] at h
    obtain ⟨hs, hrest⟩ := h
    unfold splitSegs splitDelims
    cases s with
    | key k =>
      rw [Bool.and_eq_true] at hs
      have hkne : k ≠ "" := by
        have h2 := hs.1
        simp only [Bool.not_eq_eq_eq_not, Bool.not_true, decide_eq_false_iff_not] at h2
        exact h2
      have hkfree : k.data.all (fun c => !isDelim c) = true := hs.2
      have hdata : (renderPath (Seg.key k :: rest)).data = k.data ++ renderTailL rest := by
        unfold renderPath
        rw [List.foldl_cons]
        have h0 : segAppend "" (Seg.key k) = k := by simp [segAppend]
        rw [h0]
        exact foldl_segAppend_ne rest k hkne
      rw [hdata]
      rw [splitDelimsAux_nodelim k.data (renderTailL rest) [] hkfree]
      rw [splitSegs_tail rest (k.data.reverse ++ []) hrest]
      have hmk : String.mk (k.data.reverse ++ []).reverse = k := by
        cases k
        simp
      rw [hmk, filter_ne_singleton hkne]
      simp [segStr]
    | idx n =>
      obtain ⟨hdig, hne⟩ := natDigs_all_digit (n + 1) n (by omega)
      have hdata : (renderPath (Seg.idx n :: rest)).data
          = '[' :: ((natToStr n).data ++ (']' :: renderTailL rest)) := by
        unfold renderPath
        rw [List.foldl_cons]
        have h0 : segAppend "" (Seg.idx n) = "[" ++ natToStr n ++ "]" := by
          simp [segAppend]
        rw [h0]
        have hne0 : "[" ++ natToStr n ++ "]" ≠ "" := str_ne_empty (by
          simp [String.data_append])
        rw [foldl_segAppend_ne rest _ hne0]
        simp [String.data_append]
      rw [hdata]
      rw [splitDelimsAux_delim (by decide)]
      rw [splitDelimsAux_nodelim (natToStr n).data (']' :: renderTailL rest) []
        (all_not_delim_of_digit hdig)]
      rw [splitDelimsAux_delim (by decide)]
      rw [filter_cons_split]
      have hmk : String.mk ((natToStr n).data.reverse ++ []).reverse = natToStr n := by
        simp
      rw [hmk]
      rw [filter_cons_split _ (natToStr n)]
      rw [splitSegs_tail rest [] hrest]
      have hne2 : natToStr n ≠ "" := str_ne_empty (by simpa [natToStr] using hne)
      rw [@filter_ne_singleton (natToStr n) hne2]
      simp [segStr]

/-- An empty key contains none of the delimiter characters, yet the
round trip loses it: the claim's provision is insufficient. -/
theorem path_split_roundtrip_cex :
    splitSegs (renderPath [Seg.key "", Seg.key "a"]) ≠
      [Seg.key "", Seg.key "a"].map segStr := by decide

theorem path_split_roundtrip_witness :
    splitSegs (renderPath [Seg.key "a", Seg.idx 1, Seg.key "b"]) =
      [Seg.key "a", Seg.idx 1, Seg.key "b"].map segStr ∧
    renderPath [Seg.key "a", Seg.idx 1, Seg.key "b"] = "a[1].b" ∧
    extractJsonPaths (Json.obj [("a", Json.arr [Json.num 1 0,
      Json.obj [("b", Json.num 2 0)]])]) = ["a", "a[0]", "a[1]", "a[1].b"] :=
  ⟨path_split_roundtrip [Seg.key "a", Seg.idx 1, Seg.key "b"] (by decide), by decide,
    by decide⟩

/-- The empty pattern is a substring of everything (`"x".includes("")` is
`true`). -/
theorem containsSub_empty (s : String) : containsSub s "" = true := by
  have hpre : ∀ t : List Char, List.isPrefixOf ([] : List Char) t = true := by
    intro t
    cases t with
    | nil => rfl
    | cons c r => rfl
  simp only [containsSub, List.any_eq_true]
  exact ⟨s.data, by simp, hpre s.data⟩

mutual

/-- The accumulator-threaded search of the source equals the
specification-shaped hit list appended to the incoming results. -/
theorem searchJVal_spec (csFlag : Bool) (term : String) :
    ∀ (v : Json) (path : String) (res : List SearchHit),
    searchJVal csFlag term v path res = res ++ searchSpecVal csFlag term v path
  | Json.null, path, res => by
    simp only [searchJVal, searchSpecVal]
    split_ifs <;> simp
  | Json.bool b, path, res => by
    cases b <;>
      (simp only [searchJVal, searchSpecVal]
       split_ifs <;> simp)
  | Json.num m e, path, res => by
    simp only [searchJVal, searchSpecVal]
    split_ifs <;> simp
  | Json.str s, path, res => by
    simp only [searchJVal, searchSpecVal]
    split_ifs <;> simp
  | Json.arr items, path, res => by
    simp only [searchJVal, searchSpecVal]
    exact searchJElems_spec csFlag term items path 0 res
  | Json.obj fields, path, res => by
    simp only [searchJVal, searchSpecVal]
    exact searchJFields_spec csFlag term fields path res

theorem searchJElems_spec (csFlag : Bool) (term : String) :
    ∀ (l : List Json) (path : String) (i : Nat) (res : List SearchHit),
    searchJElems csFlag term l path i res = res ++ searchSpecElems csFlag term l path i
  | [], path, i, res => by
    simp [searchJElems, searchSpecElems]
  | v :: vs, path, i, res => by
    simp only [searchJElems, searchSpecElems]
    rw [searchJElems_spec csFlag term vs path (i + 1), searchJVal_spec csFlag term v]
    simp

theorem searchJFields_spec (csFlag : Bool) (term : String) :
    ∀ (l : List (String × Json)) (path : String) (res : List SearchHit),
    searchJFields csFlag term l path res = res ++ searchSpecFields csFlag term l path
  | [], path, res => by
    simp [searchJFields, searchSpecFields]
  | kv :: rest, path, res => by
    simp only [searchJFields, searchSpecFields]
    rw [searchJFields_spec csFlag term rest path, searchJVal_spec csFlag term kv.2]
    split_ifs <;> simp

end

/-- C6: search hit order and duplication.  The accumulator-threaded search of
the source appends its hits to the incoming list in depth-first pre-order
exactly as the specification-shaped hit list prescribes (key hits before the
member's own hits, value hits at the node's path, the two checks
independent, no deduplication); in particular a member whose key matches and
whose scalar value also matches contributes exactly two hits carrying the
same path. -/
theorem search_hits_order :
    (∀ (csFlag : Bool) (term : String) (v : Json) (path : String) (res : List SearchHit),
      searchJVal csFlag term v path res = res ++ searchSpecVal csFlag term v path) ∧
    (∀ (k q : String) (v : Json), isScalarJ v = true →
      containsSub (strLower k) (strLower q) = true →
      containsSub (strLower (jsStringOf v)) (strLower q) = true →
      searchInJson (Json.obj [(k, v)]) q false =
        [⟨k, v, getJsonType v⟩, ⟨k, v, getJsonType v⟩]) := by
  constructor
  · exact fun csFlag term => searchJVal_spec csFlag term
  · intro k q v hscalar h1 h2
    unfold searchInJson
    rw [searchJVal_spec]
    cases v with
    | arr items => exact absurd hscalar (by simp [isScalarJ])
    | obj fields => exact absurd hscalar (by simp [isScalarJ])
    | null => simp [searchSpecVal, searchSpecFields, h1, h2]
    | bool b => cases b <;> simp [searchSpecVal, searchSpecFields, h1, h2]
    | num m e => simp [searchSpecVal, searchSpecFields, h1, h2]
    | str s => simp [searchSpecVal, searchSpecFields, h1, h2]

theorem search_hits_order_witness :
    searchInJson (Json.obj [("a", Json.str "ab")]) "a" false =
      [⟨"a", Json.str "ab", "string"⟩, ⟨"a", Json.str "ab", "string"⟩] ∧
    searchJVal false "1" (Json.arr [Json.num 1 0]) "" [] =
      [] ++ searchSpecVal false "1" (Json.arr [Json.num 1 0]) "" :=
  ⟨search_hits_order.2 "a" "a" (Json.str "ab") (by decide) (by decide) (by decide),
   search_hits_order.1 false "1" (Json.arr [Json.num 1 0]) "" []⟩

/-- C4: the empty-query behaviours of the two search implementations,
amended.  The tree view's search short-circuits an empty or whitespace-only
query to no hits, as the spec says; but the library's `searchInJson` has no
such guard — with an empty query the empty search term is contained in every
string, so every scalar (and every object key) produces a hit. -/
theorem empty_query_search :
    (∀ (q : String) (data : Json), jsTrim q = "" → searchInJsonTV q data = []) ∧
    (∀ v : Json, isScalarJ v = true →
      searchInJson v "" false = [⟨"", v, getJsonType v⟩]) := by
  constructor
  · intro q data h
    unfold searchInJsonTV
    rw [if_pos h]
  · intro v h
    unfold searchInJson
    rw [searchJVal_spec]
    have h0 : strLower "" = "" := rfl
    cases v with
    | arr items => exact absurd h (by simp [isScalarJ])
    | obj fields => exact absurd h (by simp [isScalarJ])
    | null => simp [searchSpecVal, h0, containsSub_empty]
    | bool b => cases b <;> simp [searchSpecVal, h0, containsSub_empty]
    | num m e => simp [searchSpecVal, h0, containsSub_empty]
    | str s => simp [searchSpecVal, h0, containsSub_empty]

/-- The library search with an empty query is not a no-op: a bare scalar
document already produces a hit. -/
theorem empty_query_search_cex : searchInJson (Json.num 1 0) "" false ≠ [] := by decide

theorem empty_query_search_witness :
    searchInJsonTV " " (Json.num 1 0) = [] ∧
    searchInJson (Json.num 1 0) "" false = [⟨"", Json.num 1 0, "number"⟩] :=
  ⟨empty_query_search.1 " " (Json.num 1 0) (by decide),
   empty_query_search.2 (Json.num 1 0) (by decide)⟩

theorem numNodes_nil : numNodes [] = 0 := rfl

theorem numNodes_append (a b : List TreeEntry) :
    numNodes (a ++ b) = numNodes a + numNodes b := by
  simp [numNodes, List.filter_append]

theorem numNodes_cons_node (p : String) (l : List TreeEntry) :
    numNodes (TreeEntry.node p :: l) = numNodes l + 1 := by
  simp [numNodes, List.filter_cons, isNodeEntry]

theorem numNodes_marker : numNodes [TreeEntry.marker] = 0 := rfl

mutual

/-- The counter advances by exactly the number of value rows emitted, and
never leaves the budget once inside it. -/
theorem renderNode_count (maxN : Nat) : ∀ (v : Json) (path : String) (isExp : Bool)
    (cnt : Nat), cnt ≤ maxN →
    (renderNode maxN v path isExp cnt).2
      = cnt + numNodes (renderNode maxN v path isExp cnt).1 ∧
    (renderNode maxN v path isExp cnt).2 ≤ maxN
  | Json.arr items, path, isExp, cnt => by
    intro h
    unfold renderNode
    by_cases h1 : maxN ≤ cnt
    · rw [if_pos h1]
      exact ⟨rfl, h⟩
    · rw [if_neg h1]
      dsimp only
      by_cases h2 : (isExp && decide (cnt + 1 < maxN)) = true
      · rw [if_pos h2]
        dsimp only
        have hlt : cnt + 1 ≤ maxN := by
          simp only [Bool.and_eq_true, decide_eq_true_eq] at h2
          omega
        obtain ⟨ih1, ih2⟩ := renderElems_count maxN items path 0 (cnt + 1) hlt
        rw [numNodes_cons_node]
        exact ⟨by omega, ih2⟩
      · rw [if_neg h2]
        exact ⟨rfl, by omega⟩
  | Json.obj fields, path, isExp, cnt => by
    intro h
    unfold renderNode
    by_cases h1 : maxN ≤ cnt
    · rw [if_pos h1]
      exact ⟨rfl, h⟩
    · rw [if_neg h1]
      dsimp only
      by_cases h2 : (isExp && decide (cnt + 1 < maxN)) = true
      · rw [if_pos h2]
        dsimp only
        have hlt : cnt + 1 ≤ maxN := by
          simp only [Bool.and_eq_true, decide_eq_true_eq] at h2
          omega
        obtain ⟨ih1, ih2⟩ := renderFields_count maxN fields path (cnt + 1) hlt
        rw [numNodes_cons_node]
        exact ⟨by omega, ih2⟩
      · rw [if_neg h2]
        exact ⟨rfl, by omega⟩
  | Json.null, path, isExp, cnt => by
    intro h
    unfold renderNode
    by_cases h1 : maxN ≤ cnt
    · rw [if_pos h1]
      exact ⟨rfl, h⟩
    · rw [if_neg h1]
      dsimp only
      exact ⟨rfl, by omega⟩
  | Json.bool b, path, isExp, cnt => by
    intro h
    unfold renderNode
    by_cases h1 : maxN ≤ cnt
    · rw [if_pos h1]
      exact ⟨rfl, h⟩
    · rw [if_neg h1]
      dsimp only
      exact ⟨rfl, by omega⟩
  | Json.num m e, path, isExp, cnt => by
    intro h
    unfold renderNode
    by_cases h1 : maxN ≤ cnt
    · rw [if_pos h1]
      exact ⟨rfl, h⟩
    · rw [if_neg h1]
      dsimp only
      exact ⟨rfl, by omega⟩
  | Json.str s, path, isExp, cnt => by
    intro h
    unfold renderNode
    by_cases h1 : maxN ≤ cnt
    · rw [if_pos h1]
      exact ⟨rfl, h⟩
    · rw [if_neg h1]
      dsimp only
      exact ⟨rfl, by omega⟩

theorem renderElems_count (maxN : Nat) : ∀ (items : List Json) (path : String) (i cnt : Nat),
    cnt ≤ maxN →
    (renderElems maxN path items i cnt).2
      = cnt + numNodes (renderElems maxN path items i cnt).1 ∧
    (renderElems maxN path items i cnt).2 ≤ maxN
  | [], path, i, cnt => by
    intro h
    exact ⟨by simp [renderElems, numNodes_nil], by simpa [renderElems] using h⟩
  | v :: vs, path, i, cnt => by
    intro h
    obtain ⟨h1, h2⟩ := renderNode_count maxN v (path ++ "[" ++ natToStr i ++ "]") false cnt h
    obtain ⟨h3, h4⟩ := renderElems_count maxN vs path (i + 1)
      (renderNode maxN v (path ++ "[" ++ natToStr i ++ "]") false cnt).2 h2
    unfold renderElems
    dsimp only
    rw [numNodes_append]
    exact ⟨by omega, h4⟩

theorem renderFields_count (maxN : Nat) :
    ∀ (fields : List (String × Json)) (path : String) (cnt : Nat), cnt ≤ maxN →
    (renderFields maxN path fields cnt).2
      = cnt + numNodes (renderFields maxN path fields cnt).1 ∧
    (renderFields maxN path fields cnt).2 ≤ maxN
  | [], path, cnt => by
    intro h
    exact ⟨by simp [renderFields, numNodes_nil], by simpa [renderFields] using h⟩
  | kv :: rest, path, cnt => by
    intro h
    obtain ⟨h1, h2⟩ := renderNode_count maxN kv.2
      (if path = "" then kv.1 else path ++ "." ++ kv.1) false cnt h
    obtain ⟨h3, h4⟩ := renderFields_count maxN rest path
      (renderNode maxN kv.2 (if path = "" then kv.1 else path ++ "." ++ kv.1) false cnt).2 h2
    unfold renderFields
    dsimp only
    rw [numNodes_append]
    exact ⟨by omega, h4⟩

end

/-- An unexpanded node inside the budget renders as exactly its own row. -/
theorem renderNode_leaf (maxN : Nat) (v : Json) (path : String) (cnt : Nat)
    (h : cnt < maxN) :
    renderNode maxN v path false cnt = ([TreeEntry.node path], cnt + 1) := by
  cases v <;>
    (unfold renderNode
     rw [if_neg (by omega : ¬maxN ≤ cnt)]) <;>
    simp

/-- When the budget covers the whole sibling list, the children render as one
row each, in order. -/
theorem renderElems_full (maxN : Nat) (path : String) : ∀ (items : List Json) (i cnt : Nat),
    cnt + items.length ≤ maxN →
    renderElems maxN path items i cnt
      = ((arrPaths path items i).map TreeEntry.node, cnt + items.length)
  | [], i, cnt => by
    intro h
    simp [renderElems, arrPaths]
  | v :: vs, i, cnt => by
    intro h
    rw [show (v :: vs).length = vs.length + 1 from rfl] at h ⊢
    unfold renderElems
    dsimp only
    rw [renderNode_leaf maxN v _ cnt (by omega)]
    rw [renderElems_full maxN path vs (i + 1) (cnt + 1) (by omega)]
    rw [show arrPaths path (v :: vs) i
        = (path ++ "[" ++ natToStr i ++ "]") :: arrPaths path vs (i + 1) from rfl]
    rw [List.map_cons]
    rw [show cnt + (vs.length + 1) = cnt + 1 + vs.length by omega]
    rfl

theorem renderFields_full (maxN : Nat) (path : String) :
    ∀ (fields : List (String × Json)) (cnt : Nat), cnt + fields.length ≤ maxN →
    renderFields maxN path fields cnt
      = ((fields.map (fun kv => if path = "" then kv.1 else path ++ "." ++ kv.1)).map
          TreeEntry.node, cnt + fields.length)
  | [], cnt => by
    intro h
    simp [renderFields]
  | kv :: rest, cnt => by
    intro h
    rw [show (kv :: rest).length = rest.length + 1 from rfl] at h ⊢
    unfold renderFields
    dsimp only
    rw [renderNode_leaf maxN kv.2 _ cnt (by omega)]
    rw [renderFields_full maxN path rest (cnt + 1) (by omega)]
    rw [List.map_cons, List.map_cons]
    rw [show cnt + (rest.length + 1) = cnt + 1 + rest.length by omega]
    rfl

theorem arrPaths_length (path : String) : ∀ (items : List Json) (i : Nat),
    (arrPaths path items i).length = items.length
  | [], i => rfl
  | v :: vs, i => by
    simp [arrPaths, arrPaths_length path vs (i + 1)]

/-- When the budget covers every visible row, the render is exactly the
pre-order visible list. -/
theorem renderNode_full (maxN : Nat) (v : Json) (path : String) (isExp : Bool) (cnt : Nat)
    (h : cnt + (visList v path isExp).length ≤ maxN) :
    renderNode maxN v path isExp cnt
      = (visList v path isExp, cnt + (visList v path isExp).length) := by
  cases isExp with
  | false =>
    have hv : visList v path false = [TreeEntry.node path] := by simp [visList]
    rw [hv] at h ⊢
    rw [renderNode_leaf maxN v path cnt (by simp at h; omega)]
    simp
  | true =>
    cases v with
    | null =>
      have hv : visList Json.null path true = [TreeEntry.node path] := by
        simp [visList, childPaths]
      rw [hv] at h ⊢
      unfold renderNode
      rw [if_neg (by simp at h; omega)]
      simp
    | bool b =>
      have hv : visList (Json.bool b) path true = [TreeEntry.node path] := by
        simp [visList, childPaths]
      rw [hv] at h ⊢
      unfold renderNode
      rw [if_neg (by simp at h; omega)]
      simp
    | num m e =>
      have hv : visList (Json.num m e) path true = [TreeEntry.node path] := by
        simp [visList, childPaths]
      rw [hv] at h ⊢
      unfold renderNode
      rw [if_neg (by simp at h; omega)]
      simp
    | str s =>
      have hv : visList (Json.str s) path true = [TreeEntry.node path] := by
        simp [visList, childPaths]
      rw [hv] at h ⊢
      unfold renderNode
      rw [if_neg (by simp at h; omega)]
      simp
    | arr items =>
      have hlen : (visList (Json.arr items) path true).length = 1 + items.length := by
        simp [visList, childPaths, arrPaths_length]
        omega
      rw [hlen] at h
      unfold renderNode
      rw [if_neg (by omega : ¬maxN ≤ cnt)]
      try dsimp only
      by_cases hc : cnt + 1 < maxN
      · rw [if_pos (by simp [hc])]
        try dsimp only
        rw [renderElems_full maxN path items 0 (cnt + 1) (by omega)]
        rw [hlen]
        rw [show visList (Json.arr items) path true
            = TreeEntry.node path :: (arrPaths path items 0).map TreeEntry.node from by
              simp [visList, childPaths]]
        rw [show cnt + (1 + items.length) = cnt + 1 + items.length by omega]
      · have hitems : items.length = 0 := by omega
        rw [List.length_eq_zero] at hitems
        subst hitems
        rw [if_neg (by simp [hc])]
        rw [hlen]
        rw [show visList (Json.arr []) path true = [TreeEntry.node path] from by
          simp [visList, childPaths, arrPaths]]
        rfl
    | obj fields =>
      have hlen : (visList (Json.obj fields) path true).length = 1 + fields.length := by
        simp [visList, childPaths]
        omega
      rw [hlen] at h
      unfold renderNode
      rw [if_neg (by omega : ¬maxN ≤ cnt)]
      try dsimp only
      by_cases hc : cnt + 1 < maxN
      · rw [if_pos (by simp [hc])]
        try dsimp only
        rw [renderFields_full maxN path fields (cnt + 1) (by omega)]
        rw [hlen]
        rw [show visList (Json.obj fields) path true
            = TreeEntry.node path :: (fields.map
              (fun kv => if path = "" then kv.1 else path ++ "." ++ kv.1)).map
              TreeEntry.node from by simp [visList, childPaths]]
        rw [show cnt + (1 + fields.length) = cnt + 1 + fields.length by omega]
      · have hfields : fields.length = 0 := by omega
        rw [List.length_eq_zero] at hfields
        subst hfields
        rw [if_neg (by simp [hc])]
        rw [hlen]
        rw [show visList (Json.obj []) path true = [TreeEntry.node path] from by
          simp [visList, childPaths]]
        rfl

/-- The visible list carries no marker. -/
theorem marker_not_mem_visList (v : Json) (path : String) (isExp : Bool) :
    TreeEntry.marker ∉ visList v path isExp := by
  intro hmem
  simp only [visList, List.mem_cons] at hmem
  rcases hmem with hx | hx
  · exact absurd hx (by simp)
  · rcases isExp with - | -
    · simp at hx
    · simp only [if_true] at hx
      rw [List.mem_map] at hx
      obtain ⟨c, -, hc⟩ := hx
      exact absurd hc (by simp)

/-- C5: the bounded tree render.  The emitted row sequence never contains
more than `maxNodes` value rows (the shared counter advances once per value
row, stops mid-sibling-list, and positions past the budget render as the
marker); and whenever the budget is at least the number of visible rows —
the node plus, when expanded, one row per child, children themselves
rendering unexpanded — the render is exactly that pre-order visible list and
no marker appears. -/
theorem treeRender_budget (maxN : Nat) (v : Json) (path : String) (isExp : Bool) :
    numNodes (renderNode maxN v path isExp 0).1 ≤ maxN ∧
    ((visList v path isExp).length ≤ maxN →
      (renderNode maxN v path isExp 0).1 = visList v path isExp ∧
      TreeEntry.marker ∉ (renderNode maxN v path isExp 0).1) := by
  constructor
  · obtain ⟨h1, h2⟩ := renderNode_count maxN v path isExp 0 (by omega)
    omega
  · intro h
    have hfull := renderNode_full maxN v path isExp 0 (by omega)
    constructor
    · rw [hfull]
    · rw [hfull]
      exact marker_not_mem_visList v path isExp

/-- The flat 100-key document of the spec's bounded-traversal example. -/
def doc100 : Json :=
  Json.obj ((List.range 100).map (fun i => ("k" ++ natToStr i, Json.num 1 0)))

theorem treeRender_budget_witness :
    (renderNode 1000 doc100 "" true 0).1 = visList doc100 "" true ∧
    TreeEntry.marker ∉ (renderNode 1000 doc100 "" true 0).1 ∧
    numNodes (renderNode 1000 doc100 "" true 0).1 = 101 ∧
    numNodes (renderNode 10 doc100 "" true 0).1 = 10 ∧
    TreeEntry.marker ∈ (renderNode 10 doc100 "" true 0).1 := by
  obtain ⟨h1, h2⟩ := (treeRender_budget 1000 doc100 "" true).2 (by decide)
  exact ⟨h1, h2, by decide, by decide, by decide⟩

/-- C2: the node-count warning path is dead code.  The analyzer caps its
reported count at `maxNodes`, so `nodeCount > maxNodes` never holds and the
spec's warning/strict-error behaviour cannot trigger: on the spec's own
trigger (a document with more nodes than `maxNodes`, strict mode on) the
parser emits no warning, no error, and reports `isValid = true`. -/
theorem nodeCount_warning_dead :
    (∀ (v : Json) (maxD maxN : Nat),
      (analyzeJsonStructure v maxD maxN).nodeCount ≤ maxN) ∧
    (parseJsonString "[1, 2, 3]" ⟨100, 2, true⟩).warnings = [] ∧
    (parseJsonString "[1, 2, 3]" ⟨100, 2, true⟩).errors = [] ∧
    (parseJsonString "[1, 2, 3]" ⟨100, 2, true⟩).metadata.isValid = true ∧
    (parseJsonString "[1, 2, 3]" ⟨100, 2, true⟩).metadata.nodeCount = 2 := by
  refine ⟨?_, by decide, by decide, by decide, by decide⟩
  intro v maxD maxN
  rw [analyze_nodeCount]
  omega

/-- C3: cycle analysis, amended.  On any value graph — the self-referencing
array included — the traversal terminates (its counter-driven recursion is
fuel-independent above `maxNodes`, as the third conjunct states) and reports
a finite node count within budget, but `hasCircularReferences` is the
hard-coded `false`, never `true`. -/
theorem analyze_graph_no_cycle_flag :
    (∀ (heap : List JCell) (root maxD maxN : Nat),
      (analyzeJsonGraph heap root maxD maxN).hasCircularReferences = false) ∧
    (∀ (heap : List JCell) (root maxD maxN : Nat),
      (analyzeJsonGraph heap root maxD maxN).nodeCount ≤ maxN) ∧
    (∀ (heap : List JCell) (root maxD maxN g : Nat), maxN + 1 ≤ g →
      traverseGraph heap maxD maxN g root 0 ⟨0, 0, []⟩ =
        traverseGraph heap maxD maxN (maxN + 1) root 0 ⟨0, 0, []⟩) := by
  refine ⟨?_, ?_, ?_⟩
  · intro heap root maxD maxN
    simp [analyzeJsonGraph]
  · intro heap root maxD maxN
    unfold analyzeJsonGraph
    dsimp only
    have h := (traverseGraph_mono heap maxD maxN (maxN + 1) root 0 ⟨0, 0, []⟩).2
    dsimp only at h
    omega
  · intro heap root maxD maxN g hg
    exact traverseGraph_fuel heap maxD maxN g (maxN + 1) root 0 ⟨0, 0, []⟩
      (by dsimp only; omega) (by dsimp only; omega)

/-- On the spec's own cycle example — an array whose single element refers
back to the array — the analyzer does not set the cycle flag. -/
theorem analyze_graph_cycle_cex :
    ¬((analyzeJsonGraph [JCell.arrG [0]] 0 100 10000).hasCircularReferences = true) := by
  simp [analyzeJsonGraph]

theorem analyze_graph_no_cycle_flag_witness :
    (analyzeJsonGraph [JCell.arrG [0]] 0 100 10000).hasCircularReferences = false ∧
    (analyzeJsonGraph [JCell.arrG [0]] 0 100 10000).nodeCount ≤ 10000 ∧
    traverseGraph [JCell.arrG [0]] 100 10000 20000 0 0 ⟨0, 0, []⟩ =
      traverseGraph [JCell.arrG [0]] 100 10000 10001 0 0 ⟨0, 0, []⟩ :=
  ⟨analyze_graph_no_cycle_flag.1 [JCell.arrG [0]] 0 100 10000,
   analyze_graph_no_cycle_flag.2.1 [JCell.arrG [0]] 0 100 10000,
   analyze_graph_no_cycle_flag.2.2 [JCell.arrG [0]] 0 100 10000 20000 (by omega)⟩

/-- C7: budget monotonicity, amended.  For fixed document and `maxDepth` the
reported count is monotone in `maxNodes`, and once `maxNodes` reaches the
depth-limited subtree size `dCount` the report is stable at that value —
which is the true total only when `maxDepth` covers the document (see the
counterexample). -/
theorem analyze_monotone_stable :
    (∀ (v : Json) (maxD m1 m2 : Nat), m1 ≤ m2 →
      (analyzeJsonStructure v maxD m1).nodeCount
        ≤ (analyzeJsonStructure v maxD m2).nodeCount) ∧
    (∀ (v : Json) (maxD maxN : Nat), dCount maxD v 0 ≤ maxN →
      (analyzeJsonStructure v maxD maxN).nodeCount = dCount maxD v 0) := by
  constructor
  · intro v maxD m1 m2 h
    rw [analyze_nodeCount, analyze_nodeCount]
    omega
  · intro v maxD maxN h
    rw [analyze_nodeCount]
    omega

/-- With `maxDepth = 0` and a roomy node budget, the analyzer stabilises at
the depth-limited size 1, not at the document's true total of 3 nodes. -/
theorem analyze_stable_below_total_cex :
    totalCount (Json.arr [Json.arr [Json.num 1 0]]) ≤ 10 ∧
    (analyzeJsonStructure (Json.arr [Json.arr [Json.num 1 0]]) 0 10).nodeCount ≠
      totalCount (Json.arr [Json.arr [Json.num 1 0]]) := by decide

theorem analyze_monotone_stable_witness :
    (analyzeJsonStructure (Json.arr [Json.num 1 0]) 100 1).nodeCount
      ≤ (analyzeJsonStructure (Json.arr [Json.num 1 0]) 100 2).nodeCount ∧
    (analyzeJsonStructure (Json.arr [Json.num 1 0]) 100 5).nodeCount
      = dCount 100 (Json.arr [Json.num 1 0]) 0 :=
  ⟨analyze_monotone_stable.1 (Json.arr [Json.num 1 0]) 100 1 2 (by omega),
   analyze_monotone_stable.2 (Json.arr [Json.num 1 0]) 100 5 (by decide)⟩

/-- C9: search-result navigation.  On an empty hit list both directions are
no-ops (and the initial cursor is −1); on a non-empty list with the cursor
in range, "next" is increment modulo the length and "previous" is decrement
modulo the length. -/
theorem navigate_wrap :
    (∀ (next : Bool) (cur : Int), navigateSearchResults 0 next cur = cur) ∧
    initialCursor 0 = -1 ∧
    (∀ (len : Nat) (cur : Int), 0 < len → 0 ≤ cur → cur < (len : Int) →
      navigateSearchResults len true cur = (cur + 1) % (len : Int) ∧
      navigateSearchResults len false cur = (cur - 1 + (len : Int)) % (len : Int)) := by
  refine ⟨?_, rfl, ?_⟩
  · intro next cur
    unfold navigateSearchResults
    rw [if_pos rfl]
  · intro len cur hlen hc0 hclen
    have hne : ¬(len = 0) := by omega
    constructor
    · unfold navigateSearchResults
      rw [if_neg hne, if_pos (show (true = true) from rfl)]
      by_cases hlt : cur < (len : Int) - 1
      · rw [if_pos hlt, Int.emod_eq_of_lt (by omega) (by omega)]
      · rw [if_neg hlt]
        have hcur : cur = (len : Int) - 1 := by omega
        subst hcur
        rw [show ((len : Int) - 1 + 1) = (len : Int) by ring, Int.emod_self]
    · unfold navigateSearchResults
      rw [if_neg hne, if_neg (show ¬(false = true) from by simp)]
      by_cases hpos : cur > 0
      · rw [if_pos hpos]
        rw [show (cur - 1 + (len : Int)) = (cur - 1) + (len : Int) * 1 by ring]
        rw [Int.add_mul_emod_self_left, Int.emod_eq_of_lt (by omega) (by omega)]
      · rw [if_neg hpos]
        have hcur : cur = 0 := by omega
        subst hcur
        rw [show ((0 : Int) - 1 + (len : Int)) = (len : Int) - 1 by ring,
          Int.emod_eq_of_lt (by omega) (by omega)]

theorem navigate_wrap_witness :
    navigateSearchResults 3 true 0 = 1 ∧ navigateSearchResults 3 true 1 = 2 ∧
    navigateSearchResults 3 true 2 = 0 ∧ navigateSearchResults 0 true (-1) = -1 ∧
    navigateSearchResults 0 false (-1) = -1 ∧ initialCursor 0 = -1 := by
  refine ⟨?_, ?_, ?_, navigate_wrap.1 true (-1), navigate_wrap.1 false (-1),
    navigate_wrap.2.1⟩
  · rw [(navigate_wrap.2.2 3 0 (by omega) (by omega) (by omega)).1]
    decide
  · rw [(navigate_wrap.2.2 3 1 (by omega) (by omega) (by omega)).1]
    decide
  · rw [(navigate_wrap.2.2 3 2 (by omega) (by omega) (by omega)).1]
    decide

/-- C10: the analyzer saturates at its budgets: the reported node count
never exceeds `maxNodes` and the reported depth never exceeds `maxDepth`,
whatever the document's true totals. -/
theorem analyze_within_budgets (v : Json) (maxD maxN : Nat) :
    (analyzeJsonStructure v maxD maxN).nodeCount ≤ maxN ∧
    (analyzeJsonStructure v maxD maxN).depth ≤ maxD := by
  constructor
  · rw [analyze_nodeCount]
    omega
  · unfold analyzeJsonStructure
    dsimp only
    exact traverseT_depth maxD maxN v 0 ⟨0, 0⟩ (by dsimp only; omega)

end JViewPro

